import Mathlib

/-!
# Verification of the podcastman deterministic core

Shallow embedding, in Lean 4, of the deterministic segmentation and
pipeline-control layer of the podcastman repository:

* `src/tts/dialogue_parser.py` — dialogue segmentation (speaker turns, cue
  extraction, long-turn splitting, serialization),
* `src/ingestion/chunker.py`   — the chunking engine,
* `src/audio/assembler.py`     — the timeline sequencer (pause insertion),
* `src/agents/graph.py`        — the pipeline controller state machine.

Python strings are modelled as `List Char`; Python regular expressions used by
the source are compiled here into deterministic scanners (each regex used by
the source has disjoint character classes at every decision point, so greedy
matching with backtracking coincides with straightforward maximal-munch
scanning).  The Python character classes `\w` and `\s` are modelled at their
ASCII meaning, which covers all inputs considered here.  Scanning functions
take an explicit fuel argument (always instantiated with the length of the
scanned list, which every call strictly decreases), so that all definitions
are executable by the kernel.
-/

/-- Python's `\w` character class (ASCII part): `[a-zA-Z0-9_]`. -/
def isWordChar (c : Char) : Bool := c.isAlphanum || c = '_'

/-- Python's `\s` character class (ASCII part): `[ \t\n\r\f\v]`. -/
def isSpaceChar (c : Char) : Bool :=
  c = ' ' || c = '\t' || c = '\n' || c = '\r' || c = '\x0b' || c = '\x0c'

/-- Python `str.strip()`: remove leading and trailing whitespace. -/
def stripChars (cs : List Char) : List Char :=
  ((cs.dropWhile isSpaceChar).reverse.dropWhile isSpaceChar).reverse

/-- One attempt of the cue regex `_CUE_PATTERN = r"\[(\w+(?:\s+\w+)?)\]"` at the
head of the input.  Returns the captured group and the remainder after the
match.  (`\w`, `\s`, `]` are pairwise disjoint, so the greedy regex is
equivalent to this maximal-munch scanner.) -/
def tryCueMatch (cs : List Char) : Option (List Char × List Char) :=
  match cs with
  | '[' :: rest =>
    let w1 := rest.takeWhile isWordChar
    let r1 := rest.dropWhile isWordChar
    if w1 = [] then none
    else
      match r1 with
      | ']' :: r => some (w1, r)
      | _ =>
        let sp := r1.takeWhile isSpaceChar
        let r2 := r1.dropWhile isSpaceChar
        if sp = [] then none
        else
          let w2 := r2.takeWhile isWordChar
          let r3 := r2.dropWhile isWordChar
          if w2 = [] then none
          else
            match r3 with
            | ']' :: r => some (w1 ++ sp ++ w2, r)
            | _ => none
  | _ => none

/-- Left-to-right non-overlapping scan of `_CUE_PATTERN`, performing
`findall` (first component) and `sub("", ·)` (second component) in one pass,
exactly as `re` does: on a failed attempt advance one character, on a match
continue after the match. -/
def cueScanAux : Nat → List Char → List (List Char) × List Char
  | _, [] => ([], [])
  | 0, cs => ([], cs)
  | fuel+1, c :: cs =>
    match tryCueMatch (c :: cs) with
    | some (cue, rest) =>
      let p := cueScanAux fuel rest
      (cue :: p.1, p.2)
    | none =>
      let p := cueScanAux fuel cs
      (p.1, c :: p.2)

/-- `(_CUE_PATTERN.findall text, _CUE_PATTERN.sub("", text))`. -/
def extractCues (cs : List Char) : List (List Char) × List Char :=
  cueScanAux cs.length cs

/-- `re.sub(r"\s{2,}", " ", ·)`: collapse every run of two or more whitespace
characters to a single space (runs of length one are left as they are). -/
def collapseSpacesAux : Nat → List Char → List Char
  | _, [] => []
  | 0, cs => cs
  | fuel+1, c :: cs =>
    if isSpaceChar c then
      let sp := (c :: cs).takeWhile isSpaceChar
      let rest := (c :: cs).dropWhile isSpaceChar
      if 2 ≤ sp.length then ' ' :: collapseSpacesAux fuel rest
      else c :: collapseSpacesAux fuel cs
    else c :: collapseSpacesAux fuel cs

def collapseSpaces (cs : List Char) : List Char := collapseSpacesAux cs.length cs

/-- Lines 44–49 of `dialogue_parser.py` (shared by `parse_script` and
`parse_dialogue`): extract the cues, remove the cue markers, strip, and
collapse leftover multiple whitespace. -/
def cleanTurnText (text : List Char) : List (List Char) × List Char :=
  let p := extractCues text
  (p.1, collapseSpaces (stripChars p.2))

/-- Sentence-terminal punctuation of `r"(?<=[.!?])\s+"`. -/
def isSentEnd (c : Char) : Bool := c = '.' || c = '!' || c = '?'

def prevIsSentEnd : Option Char → Bool
  | some p => isSentEnd p
  | none => false

/-- `re.split(r"(?<=[.!?])\s+", ·)`: split at every maximal whitespace run
immediately preceded by `.`, `!` or `?`; the separators are dropped.
`prev` is the character immediately before the current position. -/
def sentSplitAux : Nat → Option Char → List Char → List Char → List (List Char)
  | _, _, acc, [] => [acc.reverse]
  | 0, _, acc, cs => [acc.reverse ++ cs]
  | fuel+1, prev, acc, c :: cs =>
    if isSpaceChar c && prevIsSentEnd prev then
      let rest := (c :: cs).dropWhile isSpaceChar
      acc.reverse :: sentSplitAux fuel none [] rest
    else
      sentSplitAux fuel (some c) (c :: acc) cs

def sentSplit (cs : List Char) : List (List Char) := sentSplitAux cs.length none [] cs

/-- `_MAX_SEGMENT_CHARS = 500`. -/
def maxSegmentChars : Nat := 500

/-- The accumulation loop of `_split_long_segment`. -/
def splitLongGo : List (List Char) → List (List Char) → List Char → List (List Char)
  | [], parts, current =>
    if stripChars current = [] then parts else parts ++ [stripChars current]
  | sent :: rest, parts, current =>
    if maxSegmentChars < current.length + sent.length ∧ current ≠ [] then
      splitLongGo rest (parts ++ [stripChars current]) sent
    else
      splitLongGo rest parts (if current = [] then sent else current ++ ' ' :: sent)

/-- `_split_long_segment(text)`. -/
def splitLongSegment (text : List Char) : List (List Char) :=
  splitLongGo (sentSplit text) [] []

inductive Speaker where
  | HOST_A : Speaker
  | HOST_B : Speaker
deriving DecidableEq

/-- `Speaker.value` in `models/data.py`. -/
def speakerValue : Speaker → List Char
  | .HOST_A => "HOST_A".data
  | .HOST_B => "HOST_B".data

/-- `SpeakerSegment` from `models/data.py`. -/
structure SpeakerSegment where
  speaker : Speaker
  text : List Char
  index : Nat
  cues : List (List Char)
deriving DecidableEq

/-- One attempt of the default turn pattern `r"^(HOST_[AB])\s*:"` (the anchor
`^` is handled by the caller, which only calls this at line starts). -/
def matchHostMarker : List Char → Option (List Char × List Char)
  | 'H' :: 'O' :: 'S' :: 'T' :: '_' :: c :: rest =>
    if c = 'A' ∨ c = 'B' then
      match rest.dropWhile isSpaceChar with
      | ':' :: r => some (['H', 'O', 'S', 'T', '_', c], r)
      | _ => none
    else none
  | _ => none

/-- One attempt of `_DIALOGUE_PATTERN = r"^\*{0,2}(\w+)\*{0,2}\s*:"` at a line
start.  Returns the captured name and the remainder after the colon. -/
def matchDialogueMarker (cs : List Char) : Option (List Char × List Char) :=
  let stars1 := cs.takeWhile (· = '*')
  let r1 := cs.dropWhile (· = '*')
  if 2 < stars1.length then none
  else
    let w := r1.takeWhile isWordChar
    let r2 := r1.dropWhile isWordChar
    if w = [] then none
    else
      let stars2 := r2.takeWhile (· = '*')
      let r3 := r2.dropWhile (· = '*')
      if 2 < stars2.length then none
      else
        match r3.dropWhile isSpaceChar with
        | ':' :: r => some (w, r)
        | _ => none

/-- Scan for the first marker match (`re.finditer` up to the first hit).
`atLS` records whether the current position is at a line start (`^` with
`re.MULTILINE`). -/
def findFirstMarkerAux (marker : List Char → Option (List Char × List Char)) :
    Nat → Bool → List Char → Option (List Char × List Char)
  | _, _, [] => none
  | 0, _, _ => none
  | fuel+1, atLS, c :: cs =>
    match if atLS then marker (c :: cs) else none with
    | some r => some r
    | none => findFirstMarkerAux marker fuel (c = '\n') cs

/-- Collect the text of the current turn: everything up to the next marker
match at a line start (or end of input), together with that next match. -/
def collectTextAux (marker : List Char → Option (List Char × List Char)) :
    Nat → Bool → List Char → List Char × Option (List Char × List Char)
  | _, _, [] => ([], none)
  | 0, _, cs => (cs, none)
  | fuel+1, atLS, c :: cs =>
    match if atLS then marker (c :: cs) else none with
    | some r => ([], some r)
    | none =>
      let p := collectTextAux marker fuel (c = '\n') cs
      (c :: p.1, p.2)

/-- Walk from one marker match to the next, producing the raw
`(speaker_identifier, text)` pairs of `_split_into_turns` before trimming. -/
def scanTurnsAux (marker : List Char → Option (List Char × List Char)) :
    Nat → List Char × List Char → List (List Char × List Char)
  | 0, t => [t]
  | fuel+1, (spk, cs) =>
    match collectTextAux marker cs.length false cs with
    | (text, none) => [(spk, text)]
    | (text, some nxt) => (spk, text) :: scanTurnsAux marker fuel nxt

/-- The per-turn trimming of `_split_into_turns`:
`text.strip()`, then `lstrip("*")`, then `strip()`; drop if empty. -/
def postTurn (t : List Char × List Char) : Option (List Char × List Char) :=
  let t2 := stripChars ((stripChars t.2).dropWhile (· = '*'))
  if t2 = [] then none else some (t.1, t2)

/-- `_split_into_turns(script, pattern)`. -/
def splitIntoTurns (marker : List Char → Option (List Char × List Char))
    (script : List Char) : List (List Char × List Char) :=
  match findFirstMarkerAux marker script.length true script with
  | none => []
  | some (spk, rest) =>
    (scanTurnsAux marker (rest.length + 1) (spk, rest)).filterMap postTurn

/-- Lines 54–74 of `dialogue_parser.py`: append the segments of one turn,
splitting it when the cleaned text exceeds `_MAX_SEGMENT_CHARS`; only the
first sub-turn keeps the cue list; indices continue `len(segments)`. -/
def emitTurn (speaker : Speaker) (cues : List (List Char)) (cleanText : List Char)
    (segs : List SpeakerSegment) : List SpeakerSegment :=
  if maxSegmentChars < cleanText.length then
    segs ++ (splitLongSegment cleanText).enum.map
      (fun p => { speaker := speaker, text := p.2, index := segs.length + p.1,
                  cues := if p.1 = 0 then cues else [] })
  else
    segs ++ [{ speaker := speaker, text := cleanText, index := segs.length, cues := cues }]

/-- The loop body shared by `parse_script` and `parse_dialogue`: resolve the
speaker label (skipping the turn if unresolvable), clean the text (skipping
the turn if it comes out empty), and emit. -/
def processTurn (resolve : List Char → Option Speaker)
    (segs : List SpeakerSegment) (turn : List Char × List Char) : List SpeakerSegment :=
  match resolve turn.1 with
  | none => segs
  | some speaker =>
    let p := cleanTurnText turn.2
    if p.2 = [] then segs else emitTurn speaker p.1 p.2 segs

/-- The speaker resolution of `parse_script`:
`Speaker.HOST_A if speaker_str == "HOST_A" else Speaker.HOST_B`. -/
def hostResolve (s : List Char) : Option Speaker :=
  some (if s = "HOST_A".data then Speaker.HOST_A else Speaker.HOST_B)

/-- `parse_script(script)`. -/
def parseScript (script : List Char) : List SpeakerSegment :=
  (splitIntoTurns matchHostMarker script).foldl (processTurn hostResolve) []

/-- `dict.get` on the name map, modelled as an association-list lookup. -/
def lookupName (m : List (List Char × Speaker)) (s : List Char) : Option Speaker :=
  match m with
  | [] => none
  | (k, v) :: rest => if k = s then some v else lookupName rest s

/-- The default name map built by `parse_dialogue` from `voice_config`
(`HOST_A.name = "Mike"`, `HOST_B.name = "Sarah"`). -/
def defaultNameMap : List (List Char × Speaker) :=
  [("Mike".data, Speaker.HOST_A), ("Sarah".data, Speaker.HOST_B),
   ("HOST_A".data, Speaker.HOST_A), ("HOST_B".data, Speaker.HOST_B)]

/-- `parse_dialogue(script, name_map)`. -/
def parseDialogue (nameMap : List (List Char × Speaker)) (script : List Char) :
    List SpeakerSegment :=
  (splitIntoTurns matchDialogueMarker script).foldl (processTurn (lookupName nameMap)) []

/-- The `cues_str`-based line prefix of `segments_to_script`:
`" ".join(f"[{c}]" for c in cues)` followed by a space when non-empty. -/
def cuesPfx (cues : List (List Char)) : List Char :=
  let cuesStr := List.intercalate [' '] (cues.map (fun c => '[' :: c ++ [']']))
  if cuesStr = [] then [] else cuesStr ++ [' ']

/-- `segments_to_script`: one line per segment, `"{speaker}: {cues} {text}"`. -/
def segToLine (seg : SpeakerSegment) : List Char :=
  speakerValue seg.speaker ++ ':' :: ' ' :: cuesPfx seg.cues ++ seg.text

/-- `segments_to_script(segments)`, joined with blank lines. -/
def segmentsToScript (segs : List SpeakerSegment) : List Char :=
  List.intercalate ['\n', '\n'] (segs.map segToLine)

/-- What follows a serialized marker's colon: the turn's own serialized body
(leading space, cue prefix, text), then — when further segments follow — the
blank-line separator and the rest of the serialized script. -/
def turnRest (seg : SpeakerSegment) (rest : List SpeakerSegment) : List Char :=
  ' ' :: cuesPfx seg.cues ++ seg.text ++
    (match rest with
     | [] => []
     | _ :: _ => '\n' :: '\n' :: segmentsToScript rest)

/-! ## Chunking engine (`src/ingestion/chunker.py`)

`count_tokens` (tiktoken) is an external collaborator; it is modelled as an
abstract parameter `tok : List Char → Nat`.  `_get_overlap_text` uses Python
float arithmetic (`int(overlap_tokens / 1.3)`); since none of the verified
claims depend on the overlap text itself, the whole re-seeding function is
modelled as an abstract parameter `ov : List Char → List Char` (standing for
`_get_overlap_text(·, chunk_overlap)`), and the theorems below hold for every
choice of `tok` and `ov`. -/

/-- `Chunk` from `models/data.py`; the caller-supplied metadata mapping is
pass-through and omitted, its two computed entries are kept as fields. -/
structure Chunk where
  text : List Char
  index : Nat
  tokenCount : Nat
  charCount : Nat
deriving DecidableEq

/-- `_make_chunk(text, index, metadata)`. -/
def makeChunk (tok : List Char → Nat) (text : List Char) (index : Nat) : Chunk :=
  { text := text, index := index, tokenCount := tok text, charCount := text.length }

/-- Python `text.split("\n\n")`: split on the exact two-character separator,
left to right, non-overlapping, keeping empty pieces. -/
def splitDoubleNewlineAux : Nat → List Char → List Char → List (List Char)
  | _, acc, [] => [acc.reverse]
  | 0, acc, cs => [acc.reverse ++ cs]
  | _+1, acc, '\n' :: '\n' :: rest => acc.reverse :: splitDoubleNewlineAux rest.length [] rest
  | fuel+1, acc, c :: rest => splitDoubleNewlineAux fuel (c :: acc) rest

/-- `_split_paragraphs(text)`. -/
def splitParagraphs (text : List Char) : List (List Char) :=
  ((splitDoubleNewlineAux text.length [] text).map stripChars).filter (· ≠ [])

/-- The sentence loop of `_split_large_paragraph` (it reuses the same
sentence-boundary regex as the dialogue parser). -/
def splitLargeGo (tok : List Char → Nat) (ov : List Char → List Char) (size : Nat)
    (startIndex : Nat) :
    List (List Char) → List Chunk → List Char → Nat → List Chunk
  | [], chunks, current, _ =>
    if stripChars current = [] then chunks
    else chunks ++ [makeChunk tok (stripChars current) (startIndex + chunks.length)]
  | sent :: rest, chunks, current, curTok =>
    let sentTok := tok sent
    if size < curTok + sentTok ∧ stripChars current ≠ [] then
      let chunks1 := chunks ++ [makeChunk tok (stripChars current) (startIndex + chunks.length)]
      let current1 := ov current
      let current2 := if current1 = [] then sent else current1 ++ ' ' :: sent
      splitLargeGo tok ov size startIndex rest chunks1 current2 (tok current1 + sentTok)
    else
      let current2 := if current = [] then sent else current ++ ' ' :: sent
      splitLargeGo tok ov size startIndex rest chunks current2 (curTok + sentTok)

/-- `_split_large_paragraph(text, chunk_size, chunk_overlap, start_index, metadata)`. -/
def splitLargeParagraph (tok : List Char → Nat) (ov : List Char → List Char)
    (size startIndex : Nat) (text : List Char) : List Chunk :=
  splitLargeGo tok ov size startIndex (sentSplit text) [] [] 0

/-- The paragraph loop of `chunk_text`. -/
def chunkLoop (tok : List Char → Nat) (ov : List Char → List Char) (size : Nat) :
    List (List Char) → List Chunk → List Char → Nat → List Chunk
  | [], chunks, current, _ =>
    if stripChars current = [] then chunks
    else chunks ++ [makeChunk tok (stripChars current) chunks.length]
  | para :: rest, chunks, current, curTok =>
    let paraTok := tok para
    if size < paraTok then
      let chunks1 :=
        if stripChars current ≠ [] then chunks ++ [makeChunk tok (stripChars current) chunks.length]
        else chunks
      let chunks2 := chunks1 ++ splitLargeParagraph tok ov size chunks1.length para
      let current2 := (chunks2.getLast?).elim [] (fun c => ov c.text)
      chunkLoop tok ov size rest chunks2 current2 (tok current2)
    else if size < curTok + paraTok ∧ stripChars current ≠ [] then
      let chunks1 := chunks ++ [makeChunk tok (stripChars current) chunks.length]
      let current1 := ov current
      let current2 := if current1 = [] then para else current1 ++ '\n' :: '\n' :: para
      chunkLoop tok ov size rest chunks1 current2 (tok current1 + paraTok)
    else
      let current2 := if current = [] then para else current ++ '\n' :: '\n' :: para
      chunkLoop tok ov size rest chunks current2 (curTok + paraTok)

/-- `chunk_text(text, chunk_size, chunk_overlap, metadata)`. -/
def chunkText (tok : List Char → Nat) (ov : List Char → List Char)
    (text : List Char) (size : Nat) : List Chunk :=
  chunkLoop tok ov size (splitParagraphs text) [] [] 0

/-! ## Timeline sequencer (`src/audio/assembler.py`)

Audio data (`pydub.AudioSegment`) is opaque to the sequencing logic; the
assembled program is modelled as the list of pieces concatenated by the
segment loop of `assemble_podcast` (lines 53–65) — intro/outro handling and
file export are out-of-scope I/O. -/

inductive AudioPiece (α : Type) where
  | clip : α → AudioPiece α
  | silence : Nat → AudioPiece α
deriving DecidableEq

/-- `settings.pause_between_speakers_ms` default. -/
def defaultPauseBetweenSpeakersMs : Nat := 400

/-- The extra silence used for a `[pause]` cue (fixed `duration=800`). -/
def pauseCueSilenceMs : Nat := 800

def speakerChanged (prev : Option Speaker) (cur : Speaker) : Bool :=
  match prev with
  | some p => decide (cur ≠ p)
  | none => false

/-- The `for i, (audio, meta) in enumerate(zip(...))` loop of
`assemble_podcast`, accumulating the `podcast` piece list. -/
def assembleLoop {α : Type} (pauseMs : Nat) :
    List (α × SpeakerSegment) → Option Speaker → List (AudioPiece α) → List (AudioPiece α)
  | [], _, podcast => podcast
  | (audio, meta) :: rest, prev, podcast =>
    let podcast1 := if speakerChanged prev meta.speaker then podcast ++ [.silence pauseMs] else podcast
    let podcast2 := if "pause".data ∈ meta.cues then podcast1 ++ [.silence pauseCueSilenceMs] else podcast1
    assembleLoop pauseMs rest (some meta.speaker) (podcast2 ++ [.clip audio])

/-- The segment-assembly core of `assemble_podcast(processed_segments,
speaker_segments, ..., pause_ms)`: note the Python loop runs over
`zip(processed_segments, speaker_segments)`. -/
def assemblePodcastCore {α : Type} (audios : List α) (metas : List SpeakerSegment)
    (pauseMs : Nat) : List (AudioPiece α) :=
  assembleLoop pauseMs (audios.zip metas) none []

/-- The sequencing contract of spec §4.3, written as stated there: walk the
index-aligned pairs; before appending a span, insert the speaker-change
silence exactly when the previous turn's speaker differs, and (independently,
additively) the longer fixed cue silence exactly when the cue list contains
"pause". -/
def assembleSpec {α : Type} (pauseMs : Nat) :
    Option Speaker → List (α × SpeakerSegment) → List (AudioPiece α)
  | _, [] => []
  | prev, (audio, meta) :: rest =>
    (if speakerChanged prev meta.speaker then [AudioPiece.silence pauseMs] else [])
      ++ (if "pause".data ∈ meta.cues then [AudioPiece.silence pauseCueSilenceMs] else [])
      ++ AudioPiece.clip audio :: assembleSpec pauseMs (some meta.speaker) rest

/-- Number of audio spans (non-silence pieces) in an assembled timeline. -/
def clipCount {α : Type} : List (AudioPiece α) → Nat
  | [] => 0
  | AudioPiece.clip _ :: rest => clipCount rest + 1
  | AudioPiece.silence _ :: rest => clipCount rest

/-! ## Pipeline controller (`src/agents/graph.py`)

The four external transformation calls (`generate_script`, `check_accuracy`,
`enhance_storytelling`, `optimize_engagement`) are external collaborators;
each is modelled as a function returning `Except String String` (`.error e`
standing for a raised exception caught by the node's `try/except`).  The
LangGraph `TypedDict` state merge is modelled as record update: `run_pipeline`
initialises every key, so the Python `state.get(k, default)` calls never see a
missing key and are plain field reads. -/

structure GraphState where
  title : String
  content : String
  collection_name : String
  raw_script : String
  accuracy_checked_script : String
  enhanced_script : String
  final_script : String
  errors : List String
deriving DecidableEq

/-- `node_generate_script`. -/
def node_generate_script (generate : String → String → String → Except String String)
    (st : GraphState) : GraphState :=
  match generate st.title st.content st.collection_name with
  | .ok script => { st with raw_script := script }
  | .error e => { st with raw_script := "",
                          errors := st.errors ++ ["Script generation: " ++ e] }

/-- `node_accuracy_check`. -/
def node_accuracy_check (check : String → String → Except String String)
    (st : GraphState) : GraphState :=
  let script := st.raw_script
  if script = "" then { st with errors := st.errors ++ ["No script to fact-check"] }
  else
    match check script st.collection_name with
    | .ok checked => { st with accuracy_checked_script := checked }
    | .error e => { st with accuracy_checked_script := script,
                            errors := st.errors ++ ["Accuracy check: " ++ e] }

/-- `node_storytelling`. -/
def node_storytelling (enhance : String → Except String String)
    (st : GraphState) : GraphState :=
  let script := st.accuracy_checked_script
  if script = "" then { st with errors := st.errors ++ ["No script to enhance"] }
  else
    match enhance script with
    | .ok enhanced => { st with enhanced_script := enhanced }
    | .error e => { st with enhanced_script := script,
                            errors := st.errors ++ ["Storytelling: " ++ e] }

/-- `node_engagement`. -/
def node_engagement (optimize : String → Except String String)
    (st : GraphState) : GraphState :=
  let script := st.enhanced_script
  if script = "" then { st with errors := st.errors ++ ["No script to optimize"] }
  else
    match optimize script with
    | .ok final => { st with final_script := final }
    | .error e => { st with final_script := script,
                            errors := st.errors ++ ["Engagement: " ++ e] }

/-- `should_continue`. -/
def should_continue (st : GraphState) : String :=
  if st.raw_script = "" ∧ st.errors ≠ [] then "abort" else "continue"

/-- The two ways a run can reach `END` in the compiled graph: through the
conditional `abort` edge after `generate_script`, or through `engagement`. -/
inductive RunOutcome where
  | Completed : RunOutcome
  | Aborted : RunOutcome
deriving DecidableEq

structure RunResult where
  state : GraphState
  outcome : RunOutcome
deriving DecidableEq

/-- The `initial_state` dictionary of `run_pipeline`. -/
def initState (title content collection : String) : GraphState :=
  { title := title, content := content, collection_name := collection,
    raw_script := "", accuracy_checked_script := "", enhanced_script := "",
    final_script := "", errors := [] }

/-- `run_pipeline(title, content, collection_name)` over the graph built by
`build_pipeline`: entry node `generate_script`, conditional edge via
`should_continue` to `END` (abort) or `accuracy_check`, then the linear
`accuracy_check → storytelling → engagement → END`. -/
def run_pipeline (generate : String → String → String → Except String String)
    (check : String → String → Except String String)
    (enhance : String → Except String String)
    (optimize : String → Except String String)
    (title content collection : String) : RunResult :=
  if should_continue (node_generate_script generate (initState title content collection)) = "abort"
  then
    { state := node_generate_script generate (initState title content collection),
      outcome := .Aborted }
  else
    { state := node_engagement optimize (node_storytelling enhance (node_accuracy_check check
                 (node_generate_script generate (initState title content collection)))),
      outcome := .Completed }

/-- On failure a stage's output field keeps the previous stage's output. -/
def carry (r : Except String String) (prev : String) : String :=
  match r with
  | .ok c => c
  | .error _ => prev

/-- Paragraphs rejoined by blank lines, as the accumulation loop of
`chunk_text` does (`current_text += "\n\n" + para if current_text else para`). -/
def joinParas : List (List Char) → List Char
  | [] => []
  | p :: rest => p ++ (rest.map (fun q => '\n' :: '\n' :: q)).flatten

/-- The shape of every string captured by the cue-regex group
`(\w+(?:\s+\w+)?)`: one word run, or two word runs separated by one
whitespace run. -/
def CueShape (q : List Char) : Prop :=
  (q ≠ [] ∧ ∀ c ∈ q, isWordChar c = true) ∨
  (∃ w1 s w2, q = w1 ++ s ++ w2 ∧ w1 ≠ [] ∧ (∀ c ∈ w1, isWordChar c = true) ∧
    s ≠ [] ∧ (∀ c ∈ s, isSpaceChar c = true) ∧ w2 ≠ [] ∧ (∀ c ∈ w2, isWordChar c = true))

/-- A phrase of three or more whitespace-separated words: two complete
`word whitespace` groups followed by a word-led word/whitespace tail. -/
def ThreeWordPhrase (phrase : List Char) : Prop :=
  ∃ w1 s1 w2 s2 rest, phrase = w1 ++ s1 ++ w2 ++ s2 ++ rest ∧
    w1 ≠ [] ∧ (∀ c ∈ w1, isWordChar c = true) ∧
    s1 ≠ [] ∧ (∀ c ∈ s1, isSpaceChar c = true) ∧
    w2 ≠ [] ∧ (∀ c ∈ w2, isWordChar c = true) ∧
    s2 ≠ [] ∧ (∀ c ∈ s2, isSpaceChar c = true) ∧
    (∀ c ∈ rest, isWordChar c = true ∨ isSpaceChar c = true) ∧
    (∃ d t, rest = d :: t ∧ isWordChar d = true)

/-- A phrase containing a character that can appear in no cue: neither a word
character nor whitespace. -/
def OddCharPhrase (phrase : List Char) : Prop :=
  ∃ c ∈ phrase, isWordChar c = false ∧ isSpaceChar c = false

/-- The hypothesis of the implicit claim about `_CUE_PATTERN`: a non-empty
bracket-free phrase that is either three-or-more words or contains a
non-word non-whitespace character.  (Bracket freedom makes "inside the
brackets" well defined.) -/
def UnmatchablePhrase (phrase : List Char) : Prop :=
  phrase ≠ [] ∧ '[' ∉ phrase ∧ ']' ∉ phrase ∧
  (ThreeWordPhrase phrase ∨ OddCharPhrase phrase)

/-- Number of `false → true` transitions in a Boolean trace (used to count
the separate whitespace runs of a phrase); `prev` is the previous value. -/
def edges : Bool → List Bool → Nat
  | _, [] => 0
  | prev, b :: rest => (if b && !prev then 1 else 0) + edges b rest

/-- The segment lists for which serialization is inverted by re-parsing: the
text is non-empty, within the length limit, newline-free, does not start with
`*`, is untouched by cue extraction, stripping and whitespace collapsing, and
every cue has the shape captured by the cue regex, with no newline separator. -/
def RoundTripSafe (seg : SpeakerSegment) : Prop :=
  seg.text ≠ [] ∧ seg.text.length ≤ maxSegmentChars ∧ '\n' ∉ seg.text ∧
  seg.text.head? ≠ some '*' ∧ extractCues seg.text = ([], seg.text) ∧
  stripChars seg.text = seg.text ∧ collapseSpaces seg.text = seg.text ∧
  ∀ q ∈ seg.cues, CueShape q ∧ '\n' ∉ q

/-- One serialized cue followed by its separating space: `"[q] "`. -/
def cueBlock (q : List Char) : List Char := '[' :: (q ++ [']', ' '])

/-- A concrete two-segment list in the round-trip-safe regime. -/
def rtWitnessSegs : List SpeakerSegment :=
  [⟨Speaker.HOST_A, "Hello there".data, 0, [['p', 'a', 'u', 's', 'e']]⟩,
   ⟨Speaker.HOST_B, "Hi friend".data, 1, []⟩]

/-! # Theorems -/

/-! ## Basic toolkit -/

theorem isSpaceChar_not_word {c : Char} (h : isSpaceChar c = true) :
    isWordChar c = false := by
  have h6 : c = ' ' ∨ c = '\t' ∨ c = '\n' ∨ c = '\r' ∨ c = '\x0b' ∨ c = '\x0c' := by
    simpa [isSpaceChar, or_assoc] using h
  rcases h6 with h6 | h6 | h6 | h6 | h6 | h6 <;> subst h6 <;> decide

theorem dropWhile_eq_self_of_head {α : Type} {p : α → Bool} {l : List α}
    (h : l ≠ []) (hh : p (l.head h) = false) : List.dropWhile p l = l := by
  rcases l with _ | ⟨c, cs⟩
  · rfl
  · simp only [List.head_cons] at hh
    simp [List.dropWhile_cons, hh]

theorem stripChars_eq_nil_iff {l : List Char} :
    stripChars l = [] ↔ ∀ c ∈ l, isSpaceChar c = true := by
  unfold stripChars
  rw [List.reverse_eq_nil_iff, List.dropWhile_eq_nil_iff]
  constructor
  · intro h c hc
    by_cases hsp : isSpaceChar c = true
    · exact hsp
    · -- c survives the first dropWhile, hence is in the reversed list
      have hmem : c ∈ l.dropWhile isSpaceChar := by
        have := List.takeWhile_append_dropWhile isSpaceChar l
        rcases List.mem_append.1 (this ▸ hc) with h1 | h1
        · exact absurd (List.mem_takeWhile_imp h1) hsp
        · exact h1
      exact h c (List.mem_reverse.2 hmem)
  · intro h c hc
    exact h c ((List.dropWhile_suffix isSpaceChar).subset (List.mem_reverse.1 hc))

theorem stripChars_head_not_space {l : List Char} (h : stripChars l ≠ []) :
    isSpaceChar ((stripChars l).head h) = false := by
  unfold stripChars at h ⊢
  rw [List.head_reverse]
  have hne : (l.dropWhile isSpaceChar).reverse.dropWhile isSpaceChar ≠ [] := by
    intro hnil; rw [hnil] at h; exact h rfl
  -- the getLast of the second dropWhile equals the getLast of the reversed
  -- list, i.e. the head of the first dropWhile, which is not a space
  have hsuf := List.dropWhile_suffix (l := (l.dropWhile isSpaceChar).reverse) isSpaceChar
  have hrevne : (l.dropWhile isSpaceChar).reverse ≠ [] := by
    intro hz; rw [hz] at hne; simp at hne
  rw [hsuf.getLast hne, List.getLast_reverse]
  exact List.head_dropWhile_not isSpaceChar l _

theorem stripChars_getLast_not_space {l : List Char} (h : stripChars l ≠ []) :
    isSpaceChar ((stripChars l).getLast h) = false := by
  unfold stripChars at h ⊢
  rw [List.getLast_reverse]
  exact List.head_dropWhile_not isSpaceChar _ _

theorem stripChars_of_ends (l : List Char) (hl : l ≠ [])
    (hh : isSpaceChar (l.head hl) = false)
    (hg : isSpaceChar (l.getLast hl) = false) : stripChars l = l := by
  unfold stripChars
  have hrev : l.reverse ≠ [] := by simpa using hl
  have hgr : isSpaceChar (l.reverse.head hrev) = false := by
    rw [List.head_reverse]; exact hg
  rw [dropWhile_eq_self_of_head hl hh, dropWhile_eq_self_of_head hrev hgr,
    List.reverse_reverse]

/-! ## C4: cue extraction scenario -/

/-- C4: for the turn body `"[pause] hello [excited] world"`, cue extraction
yields the cues `["pause", "excited"]` in left-to-right order, removes the
bracketed markers, collapses the doubled spaces left by removal, and yields
the spoken text `"hello world"`; parsing a whole script consisting of that
turn gives exactly this segment. -/
theorem cue_extraction_scenario :
    cleanTurnText "[pause] hello [excited] world".data =
      (["pause".data, "excited".data], "hello world".data) ∧
    parseScript "HOST_A: [pause] hello [excited] world".data =
      [{ speaker := Speaker.HOST_A, text := "hello world".data, index := 0,
         cues := ["pause".data, "excited".data] }] := by
  constructor
  · decide
  · decide

/-! ## C1: pipeline controller stage-failure semantics -/

theorem node_accuracy_check_fields (check : String → String → Except String String)
    (st : GraphState) (h : st.raw_script ≠ "") :
    (node_accuracy_check check st).accuracy_checked_script
        = carry (check st.raw_script st.collection_name) st.raw_script ∧
    (node_accuracy_check check st).raw_script = st.raw_script ∧
    (node_accuracy_check check st).enhanced_script = st.enhanced_script ∧
    (node_accuracy_check check st).final_script = st.final_script ∧
    (node_accuracy_check check st).collection_name = st.collection_name := by
  unfold node_accuracy_check carry
  rcases hc : check st.raw_script st.collection_name with e | c <;> simp [h, hc]

theorem node_storytelling_fields (enhance : String → Except String String)
    (st : GraphState) (h : st.accuracy_checked_script ≠ "") :
    (node_storytelling enhance st).enhanced_script
        = carry (enhance st.accuracy_checked_script) st.accuracy_checked_script ∧
    (node_storytelling enhance st).raw_script = st.raw_script ∧
    (node_storytelling enhance st).accuracy_checked_script = st.accuracy_checked_script ∧
    (node_storytelling enhance st).final_script = st.final_script := by
  unfold node_storytelling carry
  rcases hc : enhance st.accuracy_checked_script with e | c <;> simp [h, hc]

theorem node_engagement_fields (optimize : String → Except String String)
    (st : GraphState) (h : st.enhanced_script ≠ "") :
    (node_engagement optimize st).final_script
        = carry (optimize st.enhanced_script) st.enhanced_script ∧
    (node_engagement optimize st).raw_script = st.raw_script ∧
    (node_engagement optimize st).accuracy_checked_script = st.accuracy_checked_script ∧
    (node_engagement optimize st).enhanced_script = st.enhanced_script := by
  unfold node_engagement carry
  rcases hc : optimize st.enhanced_script with e | c <;> simp [h, hc]

theorem carry_ne_empty {r : Except String String} {prev : String}
    (hok : ∀ c, r = Except.ok c → c ≠ "") (hprev : prev ≠ "") :
    carry r prev ≠ "" := by
  rcases r with e | c
  · simpa [carry] using hprev
  · simpa [carry] using hok c rfl

theorem later_stages_fields (check : String → String → Except String String)
    (enhance optimize : String → Except String String)
    (st1 : GraphState) (s collection : String)
    (hraw : st1.raw_script = s) (hcoll : st1.collection_name = collection) (hs : s ≠ "")
    (hchk : ∀ x y c, check x y = Except.ok c → c ≠ "")
    (henh : ∀ x c, enhance x = Except.ok c → c ≠ "") :
    (node_engagement optimize (node_storytelling enhance (node_accuracy_check check st1))).raw_script = s ∧
    (node_engagement optimize (node_storytelling enhance (node_accuracy_check check st1))).accuracy_checked_script
        = carry (check s collection) s ∧
    (node_engagement optimize (node_storytelling enhance (node_accuracy_check check st1))).enhanced_script
        = carry (enhance (carry (check s collection) s)) (carry (check s collection) s) ∧
    (node_engagement optimize (node_storytelling enhance (node_accuracy_check check st1))).final_script
        = carry (optimize (carry (enhance (carry (check s collection) s)) (carry (check s collection) s)))
                (carry (enhance (carry (check s collection) s)) (carry (check s collection) s)) := by
  obtain ⟨ha1, ha2, ha3, ha4, ha5⟩ :=
    node_accuracy_check_fields check st1 (by rw [hraw]; exact hs)
  set st2 := node_accuracy_check check st1 with hst2d
  have hacc2 : st2.accuracy_checked_script = carry (check s collection) s := by
    rw [ha1, hraw, hcoll]
  have hacc2ne : st2.accuracy_checked_script ≠ "" := by
    rw [hacc2]
    exact carry_ne_empty (fun c hc => hchk s collection c hc) hs
  obtain ⟨hb1, hb2, hb3, hb4⟩ := node_storytelling_fields enhance st2 hacc2ne
  set st3 := node_storytelling enhance st2 with hst3d
  have henh3 : st3.enhanced_script
      = carry (enhance (carry (check s collection) s)) (carry (check s collection) s) := by
    rw [hb1, hacc2]
  have henh3ne : st3.enhanced_script ≠ "" := by
    rw [henh3]
    exact carry_ne_empty (fun c hc => henh _ c hc)
      (carry_ne_empty (fun c hc => hchk s collection c hc) hs)
  obtain ⟨hc1, hc2, hc3, hc4⟩ := node_engagement_fields optimize st3 henh3ne
  exact ⟨by rw [hc2, hb2, ha2, hraw], by rw [hc3, hb3, hacc2],
    by rw [hc4, henh3], by rw [hc1, henh3]⟩

/-- C1: if the first stage (script generation) fails, the run ends `Aborted`
with both `raw_script` and `final_script` empty and a non-empty error list;
if generation succeeds (with a non-empty script, and assuming the external
verify/enhance collaborators never return empty scripts on success), the run
always reaches `Completed`, each later stage's output field carries the
previous stage's output forward unchanged on failure (`carry`), and the final
script is the output of the last successful stage (the threefold `carry` chain). -/
theorem pipeline_stage_failure_semantics
    (generate : String → String → String → Except String String)
    (check : String → String → Except String String)
    (enhance optimize : String → Except String String)
    (title content collection : String) :
    ((∃ e, generate title content collection = Except.error e) →
      (run_pipeline generate check enhance optimize title content collection).outcome
          = RunOutcome.Aborted ∧
      (run_pipeline generate check enhance optimize title content collection).state.raw_script = "" ∧
      (run_pipeline generate check enhance optimize title content collection).state.final_script = "" ∧
      (run_pipeline generate check enhance optimize title content collection).state.errors ≠ []) ∧
    (∀ s, generate title content collection = Except.ok s → s ≠ "" →
      (∀ x y c, check x y = Except.ok c → c ≠ "") →
      (∀ x c, enhance x = Except.ok c → c ≠ "") →
      (run_pipeline generate check enhance optimize title content collection).outcome
          = RunOutcome.Completed ∧
      (run_pipeline generate check enhance optimize title content collection).state.raw_script = s ∧
      (run_pipeline generate check enhance optimize title content collection).state.accuracy_checked_script
          = carry (check s collection) s ∧
      (run_pipeline generate check enhance optimize title content collection).state.enhanced_script
          = carry (enhance (carry (check s collection) s)) (carry (check s collection) s) ∧
      (run_pipeline generate check enhance optimize title content collection).state.final_script
          = carry (optimize (carry (enhance (carry (check s collection) s)) (carry (check s collection) s)))
                  (carry (enhance (carry (check s collection) s)) (carry (check s collection) s))) := by
  constructor
  · rintro ⟨e, hgen⟩
    simp [run_pipeline, node_generate_script, initState, hgen, should_continue]
  · intro s hgen hs hchk henh
    have hst1 : node_generate_script generate (initState title content collection) =
        { initState title content collection with raw_script := s } := by
      simp only [node_generate_script, initState]
      rw [hgen]
    have hraw1 : (node_generate_script generate (initState title content collection)).raw_script
        = s := by rw [hst1]
    have hcoll1 : (node_generate_script generate
        (initState title content collection)).collection_name = collection := by
      rw [hst1]; rfl
    have hcont : should_continue (node_generate_script generate
        (initState title content collection)) ≠ "abort" := by
      rw [should_continue]
      simp [hraw1, hs]
    have hrun : run_pipeline generate check enhance optimize title content collection
        = { state := node_engagement optimize (node_storytelling enhance (node_accuracy_check check
              (node_generate_script generate (initState title content collection)))),
            outcome := RunOutcome.Completed } := by
      unfold run_pipeline
      rw [if_neg hcont]
    obtain ⟨f1, f2, f3, f4⟩ := later_stages_fields check enhance optimize
      (node_generate_script generate (initState title content collection)) s collection
      hraw1 hcoll1 hs hchk henh
    exact ⟨by rw [hrun], by rw [hrun]; exact f1, by rw [hrun]; exact f2,
      by rw [hrun]; exact f3, by rw [hrun]; exact f4⟩

theorem pipeline_stage_failure_semantics_witness :
    (run_pipeline (fun _ _ _ => Except.error "boom") (fun _ _ => Except.ok "c")
        (fun _ => Except.ok "e") (fun _ => Except.ok "o") "t" "x" "k").outcome
      = RunOutcome.Aborted ∧
    (run_pipeline (fun _ _ _ => Except.ok "S") (fun _ _ => Except.error "net")
        (fun _ => Except.ok "E2") (fun _ => Except.error "late") "t" "x" "k").state.final_script
      = "E2" := by
  constructor
  · exact ((pipeline_stage_failure_semantics _ _ _ _ "t" "x" "k").1 ⟨"boom", rfl⟩).1
  · have h := (pipeline_stage_failure_semantics (fun _ _ _ => Except.ok "S")
      (fun _ _ => Except.error "net") (fun _ => Except.ok "E2")
      (fun _ => Except.error "late") "t" "x" "k").2 "S" rfl (by decide)
      (fun _ _ c hc => by cases hc)
      (fun _ c hc => by injection hc with h2; rw [← h2]; decide)
    exact h.2.2.2.2.trans rfl

/-! ## C9 and C2: timeline sequencer -/

theorem assembleLoop_eq_spec {α : Type} (pauseMs : Nat) :
    ∀ (l : List (α × SpeakerSegment)) (prev : Option Speaker) (podcast : List (AudioPiece α)),
      assembleLoop pauseMs l prev podcast = podcast ++ assembleSpec pauseMs prev l := by
  intro l
  induction l with
  | nil => intro prev podcast; simp [assembleLoop, assembleSpec]
  | cons hd tl ih =>
    rcases hd with ⟨audio, meta⟩
    intro prev podcast
    simp only [assembleLoop, assembleSpec]
    rw [ih]
    cases hsc : speakerChanged prev meta.speaker <;>
      by_cases hp : "pause".data ∈ meta.cues <;>
      simp [hsc, hp, List.append_assoc]

/-- C9: walking the index-aligned span/turn pairs, the assembler inserts the
`pauseMs` silence immediately before a span exactly when the previous turn's
speaker differs from the current turn's, and — independently and additively —
the longer fixed 800 ms silence exactly when the turn's cue list contains
`"pause"`; this is the content of `assembleSpec`, which the assembly loop of
`assemble_podcast` realises exactly.  The cue silence (800 ms) is longer than
the default speaker-change pause (400 ms). -/
theorem assemble_pause_insertion {α : Type} (audios : List α) (metas : List SpeakerSegment)
    (pauseMs : Nat) (h : audios.length = metas.length) :
    assemblePodcastCore audios metas pauseMs = assembleSpec pauseMs none (audios.zip metas) ∧
    defaultPauseBetweenSpeakersMs < pauseCueSilenceMs := by
  refine ⟨?_, by decide⟩
  unfold assemblePodcastCore
  rw [assembleLoop_eq_spec]
  simp

theorem assemble_pause_insertion_witness :
    assemblePodcastCore [10, 20]
        [{ speaker := Speaker.HOST_A, text := "a".data, index := 0, cues := [] },
         { speaker := Speaker.HOST_B, text := "b".data, index := 1, cues := ["pause".data] }] 400
      = assembleSpec 400 none (([10, 20] : List Nat).zip
          [{ speaker := Speaker.HOST_A, text := "a".data, index := 0, cues := [] },
           { speaker := Speaker.HOST_B, text := "b".data, index := 1, cues := ["pause".data] }]) ∧
    defaultPauseBetweenSpeakersMs < pauseCueSilenceMs :=
  assemble_pause_insertion _ _ _ (by decide)

/-- C2 counterexample: `assemble_podcast` contains no length check — with two
audio spans and one metadata turn, the call proceeds normally (the Python
loop runs over `zip`, silently dropping the extra span) instead of being
rejected as an input error. -/
theorem assemble_length_mismatch_counterexample :
    ([0, 1] : List Nat).length
        ≠ ([{ speaker := Speaker.HOST_A, text := "hi".data, index := 0, cues := [] }]
            : List SpeakerSegment).length ∧
    assemblePodcastCore ([0, 1] : List Nat)
        [{ speaker := Speaker.HOST_A, text := "hi".data, index := 0, cues := [] }] 400
      = [AudioPiece.clip 0] := by
  exact ⟨by decide, by decide⟩

theorem zip_eq_zip_take {α β : Type} :
    ∀ (xs : List α) (ys : List β), xs.zip ys = (xs.take ys.length).zip (ys.take xs.length) := by
  intro xs
  induction xs with
  | nil => intro ys; simp
  | cons x xs ih =>
    intro ys
    cases ys with
    | nil => simp
    | cons y ys => simp [List.zip_cons_cons, ih ys]

theorem clipCount_append {α : Type} :
    ∀ (a b : List (AudioPiece α)), clipCount (a ++ b) = clipCount a + clipCount b := by
  intro a b
  induction a with
  | nil => simp [clipCount]
  | cons p rest ih => cases p <;> simp [clipCount, ih] <;> omega

theorem clipCount_spec {α : Type} (pauseMs : Nat) :
    ∀ (l : List (α × SpeakerSegment)) (prev : Option Speaker),
      clipCount (assembleSpec pauseMs prev l) = l.length := by
  intro l
  induction l with
  | nil => intro prev; simp [assembleSpec, clipCount]
  | cons hd tl ih =>
    rcases hd with ⟨audio, meta⟩
    intro prev
    simp only [assembleSpec]
    rw [clipCount_append, clipCount_append]
    cases hsc : speakerChanged prev meta.speaker <;>
      by_cases hp : "pause".data ∈ meta.cues <;>
      simp [hsc, hp, clipCount, ih, List.length_cons] <;> omega

/-- C2 amended: mismatched input lengths are not rejected; the assembly loop
runs over the `zip` of the two sequences, so the result is exactly the
assembly of the first `min |audios| |metas|` index-aligned pairs, and it
contains exactly that many audio spans — the excess elements of the longer
input are silently ignored. -/
theorem assemble_mismatch_truncates {α : Type} (audios : List α)
    (metas : List SpeakerSegment) (pauseMs : Nat) :
    assemblePodcastCore audios metas pauseMs
      = assemblePodcastCore (audios.take metas.length) (metas.take audios.length) pauseMs ∧
    clipCount (assemblePodcastCore audios metas pauseMs) = min audios.length metas.length := by
  constructor
  · unfold assemblePodcastCore
    rw [← zip_eq_zip_take]
  · unfold assemblePodcastCore
    rw [assembleLoop_eq_spec]
    simp only [List.nil_append]
    rw [clipCount_spec]
    simpa using List.length_zip audios metas

/-! ## C5 and C6: chunking engine -/

theorem indexInv_concat (chunks : List Chunk) (start : Nat) (c : Chunk)
    (h : chunks.map (fun x => x.index) = List.range' start chunks.length)
    (hc : c.index = start + chunks.length) :
    (chunks ++ [c]).map (fun x => x.index) = List.range' start (chunks ++ [c]).length := by
  have h2 : List.range' start (chunks.length + 1)
      = List.range' start chunks.length ++ [start + chunks.length] := by
    simpa using @List.range'_concat 1 start chunks.length
  simp only [List.map_append, List.length_append, List.map_cons, List.map_nil, h, hc,
    List.length_cons, List.length_nil, Nat.zero_add, Nat.add_zero]
  rw [h2]

theorem splitLargeGo_indices (tok : List Char → Nat) (ov : List Char → List Char)
    (size startIndex : Nat) :
    ∀ (sents : List (List Char)) (chunks : List Chunk) (current : List Char) (curTok : Nat),
      chunks.map (fun c => c.index) = List.range' startIndex chunks.length →
      (splitLargeGo tok ov size startIndex sents chunks current curTok).map (fun c => c.index)
        = List.range' startIndex
            (splitLargeGo tok ov size startIndex sents chunks current curTok).length := by
  intro sents
  induction sents with
  | nil =>
    intro chunks current curTok h
    by_cases hs : stripChars current = []
    · simpa [splitLargeGo, hs] using h
    · have heq : splitLargeGo tok ov size startIndex [] chunks current curTok
          = chunks ++ [makeChunk tok (stripChars current) (startIndex + chunks.length)] := by
        simp [splitLargeGo, hs]
      rw [heq]
      exact indexInv_concat chunks startIndex _ h (by simp [makeChunk])
  | cons sent rest ih =>
    intro chunks current curTok h
    simp only [splitLargeGo]
    by_cases hcond : size < curTok + tok sent ∧ stripChars current ≠ []
    · rw [if_pos hcond]
      exact ih _ _ _ (indexInv_concat chunks startIndex _ h (by simp [makeChunk]))
    · rw [if_neg hcond]
      exact ih _ _ _ h

theorem chunkLoop_indices (tok : List Char → Nat) (ov : List Char → List Char) (size : Nat) :
    ∀ (paras : List (List Char)) (chunks : List Chunk) (current : List Char) (curTok : Nat),
      chunks.map (fun c => c.index) = List.range' 0 chunks.length →
      (chunkLoop tok ov size paras chunks current curTok).map (fun c => c.index)
        = List.range' 0 (chunkLoop tok ov size paras chunks current curTok).length := by
  intro paras
  induction paras with
  | nil =>
    intro chunks current curTok h
    by_cases hs : stripChars current = []
    · simpa [chunkLoop, hs] using h
    · simp only [chunkLoop]
      rw [if_neg hs]
      exact indexInv_concat chunks 0 _ h (by simp [makeChunk])
  | cons para rest ih =>
    intro chunks current curTok h
    simp only [chunkLoop]
    by_cases hbig : size < tok para
    · rw [if_pos hbig]
      have h1 : ∀ chunks1 : List Chunk,
          chunks1.map (fun c => c.index) = List.range' 0 chunks1.length →
          (chunks1 ++ splitLargeParagraph tok ov size chunks1.length para).map (fun c => c.index)
            = List.range' 0 (chunks1 ++ splitLargeParagraph tok ov size chunks1.length para).length := by
        intro chunks1 h1
        have hsub := splitLargeGo_indices tok ov size chunks1.length (sentSplit para) [] [] 0
          (by simp)
        unfold splitLargeParagraph
        rw [List.map_append, List.length_append, h1, hsub]
        have hr := List.range'_append 0 chunks1.length
          (splitLargeGo tok ov size chunks1.length (sentSplit para) [] [] 0).length 1
        simp only [Nat.zero_add, Nat.one_mul] at hr
        rw [hr]
        congr 1
        omega
      by_cases hs : stripChars current ≠ []
      · rw [if_pos hs]
        exact ih _ _ _ (h1 _ (indexInv_concat chunks 0 _ h (by simp [makeChunk])))
      · rw [if_neg hs]
        exact ih _ _ _ (h1 _ h)
    · rw [if_neg hbig]
      by_cases hcond : size < curTok + tok para ∧ stripChars current ≠ []
      · rw [if_pos hcond]
        exact ih _ _ _ (indexInv_concat chunks 0 _ h (by simp [makeChunk]))
      · rw [if_neg hcond]
        exact ih _ _ _ h

/-- C5: for every token-count估 function, every overlap re-seeding function,
every input text and every size configuration, the chunk `index` values are
exactly `0, 1, 2, ...` in emission order — strictly increasing and gap-free,
continuing across sub-splits of oversized paragraphs. -/
theorem chunk_index_contiguity (tok : List Char → Nat) (ov : List Char → List Char)
    (text : List Char) (size : Nat) :
    (chunkText tok ov text size).map (fun c => c.index)
      = List.range (chunkText tok ov text size).length := by
  rw [List.range_eq_range']
  exact chunkLoop_indices tok ov size (splitParagraphs text) [] [] 0 (by simp)

theorem stripChars_idem (y : List Char) : stripChars (stripChars y) = stripChars y := by
  by_cases h : stripChars y = []
  · rw [h]; rfl
  · exact stripChars_of_ends _ h (stripChars_head_not_space h) (stripChars_getLast_not_space h)

theorem stripChars_head?_not_space {l : List Char} {c : Char}
    (h : (stripChars l).head? = some c) : isSpaceChar c = false := by
  have hne : stripChars l ≠ [] := by intro hz; rw [hz] at h; cases h
  have h2 := stripChars_head_not_space hne
  rw [List.head?_eq_head hne] at h
  injection h with h3
  rw [← h3]
  exact h2

theorem stripChars_getLast?_not_space {l : List Char} {c : Char}
    (h : (stripChars l).getLast? = some c) : isSpaceChar c = false := by
  have hne : stripChars l ≠ [] := by intro hz; rw [hz] at h; cases h
  have h2 := stripChars_getLast_not_space hne
  rw [List.getLast?_eq_getLast _ hne] at h
  injection h with h3
  rw [← h3]
  exact h2

theorem stripChars_of_ends' (l : List Char)
    (hh : ∀ c, l.head? = some c → isSpaceChar c = false)
    (hg : ∀ c, l.getLast? = some c → isSpaceChar c = false) : stripChars l = l := by
  by_cases hl : l = []
  · rw [hl]; rfl
  · exact stripChars_of_ends l hl (hh _ (List.head?_eq_head hl))
      (hg _ (List.getLast?_eq_getLast _ hl))

theorem getLast?_cons_of_ne_nil {α : Type} (a : α) {l : List α} (h : l ≠ []) :
    (a :: l).getLast? = l.getLast? := by
  cases l with
  | nil => exact absurd rfl h
  | cons b t => exact List.getLast?_cons_cons

theorem joinParas_head? (p : List Char) (rest : List (List Char)) (hp : p ≠ []) :
    (joinParas (p :: rest)).head? = p.head? := by
  simp only [joinParas]
  cases p with
  | nil => exact absurd rfl hp
  | cons a t => rfl

theorem flatten_sep_getLast? :
    ∀ (rest : List (List Char)) (q : List Char), (∀ p ∈ rest, p ≠ []) →
      rest.getLast? = some q →
      ((rest.map (fun x => '\n' :: '\n' :: x)).flatten).getLast? = q.getLast? := by
  intro rest
  induction rest with
  | nil => intro q _ h; cases h
  | cons r rs ih =>
    intro q hall hlast
    cases rs with
    | nil =>
      have hq : r = q := by
        simp only [List.getLast?] at hlast
        simpa [List.getLast] using hlast
      subst hq
      have hrne : r ≠ [] := hall r (by simp)
      simp only [List.map_cons, List.map_nil, List.flatten_cons, List.flatten_nil,
        List.append_nil]
      rw [getLast?_cons_of_ne_nil _ (by simp : ('\n' :: r : List Char) ≠ []),
        getLast?_cons_of_ne_nil _ hrne]
    | cons r2 rs2 =>
      have h2 := ih q (fun p hp => hall p (by simp [hp]))
        (by rw [← List.getLast?_cons_cons]; exact hlast)
      simp only [List.map_cons, List.flatten_cons] at h2 ⊢
      show (('\n' :: '\n' :: r)
          ++ ('\n' :: '\n' :: r2 ++ (rs2.map (fun x => '\n' :: '\n' :: x)).flatten)).getLast?
        = q.getLast?
      rw [List.getLast?_append_of_ne_nil _ (by simp)]
      exact h2

theorem joinParas_getLast? (paras : List (List Char)) (q : List Char)
    (hall : ∀ p ∈ paras, p ≠ []) (h : paras.getLast? = some q) :
    (joinParas paras).getLast? = q.getLast? := by
  cases paras with
  | nil => cases h
  | cons p rest =>
    cases rest with
    | nil =>
      have hq : p = q := by
        simp only [List.getLast?] at h
        simpa [List.getLast] using h
      subst hq
      simp [joinParas]
    | cons r rs =>
      simp only [joinParas]
      rw [List.getLast?_append_of_ne_nil _ (by simp [List.flatten_cons] :
        (((r :: rs).map (fun x => '\n' :: '\n' :: x)).flatten : List Char) ≠ [])]
      exact flatten_sep_getLast? (r :: rs) q (fun x hx => hall x (by simp [hx]))
        (by rw [← h]; exact List.getLast?_cons_cons.symm)

theorem strip_joinParas (paras : List (List Char)) (hone : paras ≠ [])
    (hall : ∀ p ∈ paras, stripChars p = p ∧ p ≠ []) :
    stripChars (joinParas paras) = joinParas paras := by
  apply stripChars_of_ends'
  · intro c hc
    cases paras with
    | nil => exact absurd rfl hone
    | cons p rest =>
      rw [joinParas_head? p rest (hall p (by simp)).2] at hc
      rw [← (hall p (by simp)).1] at hc
      exact stripChars_head?_not_space hc
  · intro c hc
    obtain ⟨q, hq⟩ : ∃ q, paras.getLast? = some q := by
      cases paras with
      | nil => exact absurd rfl hone
      | cons p rest => exact ⟨_, List.getLast?_eq_getLast _ (by simp)⟩
    have hqm : q ∈ paras := List.mem_of_mem_getLast? hq
    rw [joinParas_getLast? paras q (fun p hp => (hall p hp).2) hq] at hc
    rw [← (hall q hqm).1] at hc
    exact stripChars_getLast?_not_space hc

theorem foldl_join_of_ne_nil :
    ∀ (rest : List (List Char)) (c : List Char), c ≠ [] →
      rest.foldl (fun c p => if c = [] then p else c ++ '\n' :: '\n' :: p) c
        = c ++ (rest.map (fun q => '\n' :: '\n' :: q)).flatten := by
  intro rest
  induction rest with
  | nil => intro c _; simp
  | cons r rs ih =>
    intro c hc
    simp only [List.foldl_cons, List.map_cons, List.flatten_cons]
    rw [if_neg hc, ih (c ++ '\n' :: '\n' :: r) (by simp), List.append_assoc]

theorem foldl_join_eq_joinParas (paras : List (List Char))
    (hall : ∀ p ∈ paras, p ≠ []) :
    paras.foldl (fun c p => if c = [] then p else c ++ '\n' :: '\n' :: p) []
      = joinParas paras := by
  cases paras with
  | nil => rfl
  | cons p rest =>
    simp only [List.foldl_cons, if_pos rfl, joinParas]
    exact foldl_join_of_ne_nil rest p (hall p (by simp))

theorem chunkLoop_all_fit (tok : List Char → Nat) (ov : List Char → List Char) (size : Nat) :
    ∀ (paras : List (List Char)) (current : List Char) (curTok : Nat),
      curTok + (paras.map tok).sum ≤ size →
      chunkLoop tok ov size paras [] current curTok
        = (if stripChars (paras.foldl
              (fun c p => if c = [] then p else c ++ '\n' :: '\n' :: p) current) = []
           then []
           else [makeChunk tok (stripChars (paras.foldl
              (fun c p => if c = [] then p else c ++ '\n' :: '\n' :: p) current)) 0]) := by
  intro paras
  induction paras with
  | nil =>
    intro current curTok h
    by_cases hs : stripChars current = []
    · simp [chunkLoop, hs]
    · simp [chunkLoop, hs]
  | cons para rest ih =>
    intro current curTok h
    simp only [List.map_cons, List.sum_cons] at h
    have h1 : ¬ size < tok para := by omega
    have h2 : ¬ (size < curTok + tok para ∧ stripChars current ≠ []) := by
      rintro ⟨h2a, _⟩; omega
    simp only [chunkLoop]
    rw [if_neg h1, if_neg h2, ih _ _ (by omega)]
    rfl

/-- C6 amended: blank (all-whitespace or empty) input yields zero units; any
input with at least one non-blank paragraph whose paragraph token estimates
sum to at most `size` yields exactly one unit, whose text is the trimmed
paragraphs rejoined by blank lines (equal to the whole input whenever the
input is already in that normal form), and the result does not depend on the
overlap re-seeding function at all (no overlap trimming is applied). -/
theorem chunk_small_input_single_unit (tok : List Char → Nat)
    (ov ov' : List Char → List Char) (text : List Char) (size : Nat)
    (hne : splitParagraphs text ≠ [])
    (hsum : ((splitParagraphs text).map tok).sum ≤ size) :
    chunkText tok ov text size = [makeChunk tok (joinParas (splitParagraphs text)) 0] ∧
    chunkText tok ov text size = chunkText tok ov' text size ∧
    (∀ t2 : List Char, splitParagraphs t2 = [] → chunkText tok ov t2 size = []) := by
  have hall : ∀ p ∈ splitParagraphs text, stripChars p = p ∧ p ≠ [] := by
    intro p hp
    unfold splitParagraphs at hp
    have hp2 := List.mem_filter.1 hp
    obtain ⟨y, _, hyp⟩ := List.mem_map.1 hp2.1
    refine ⟨?_, by simpa using hp2.2⟩
    rw [← hyp]
    exact stripChars_idem y
  have hjoin : (splitParagraphs text).foldl
      (fun c p => if c = [] then p else c ++ '\n' :: '\n' :: p) []
      = joinParas (splitParagraphs text) :=
    foldl_join_eq_joinParas _ (fun p hp => (hall p hp).2)
  have hstrip : stripChars (joinParas (splitParagraphs text))
      = joinParas (splitParagraphs text) :=
    strip_joinParas _ hne (fun p hp => hall p hp)
  have hjoinne : joinParas (splitParagraphs text) ≠ [] := by
    cases hps : splitParagraphs text with
    | nil => exact absurd hps hne
    | cons p rest =>
      have hpne : p ≠ [] := (hall p (by rw [hps]; simp)).2
      simp [joinParas, hpne]
  have hmain : ∀ ovx : List Char → List Char,
      chunkText tok ovx text size = [makeChunk tok (joinParas (splitParagraphs text)) 0] := by
    intro ovx
    unfold chunkText
    rw [chunkLoop_all_fit tok ovx size (splitParagraphs text) [] 0 (by omega), hjoin, hstrip,
      if_neg hjoinne]
  refine ⟨hmain ov, by rw [hmain ov, hmain ov'], ?_⟩
  intro t2 h2
  show chunkLoop tok ov size (splitParagraphs t2) [] [] 0 = []
  rw [h2]
  rfl

/-- C6 counterexample: the whitespace-only input `" "` is non-empty and its
token estimate is under the limit, yet the chunking engine yields zero units
(not one); and for `"a\n\n\n\nb"` the single produced unit's text is the
normalised `"a\n\nb"`, not the whole input text. -/
theorem chunk_small_input_counterexample :
    (" ".data ≠ [] ∧ List.length " ".data ≤ 800 ∧
      chunkText List.length id " ".data 800 = []) ∧
    ((chunkText List.length id "a\n\n\n\nb".data 800).map (fun c => c.text)
        = ["a\n\nb".data] ∧
      "a\n\nb".data ≠ "a\n\n\n\nb".data) := by
  exact ⟨⟨by decide, by decide, by decide⟩, by decide, by decide⟩

theorem chunk_small_input_single_unit_witness :
    chunkText List.length id "a\n\nb".data 800
        = [makeChunk List.length (joinParas (splitParagraphs "a\n\nb".data)) 0] ∧
    chunkText List.length id "a\n\nb".data 800
        = chunkText List.length (fun _ => []) "a\n\nb".data 800 ∧
    (∀ t2 : List Char, splitParagraphs t2 = [] →
      chunkText List.length id t2 800 = []) :=
  chunk_small_input_single_unit List.length id (fun _ => []) "a\n\nb".data 800
    (by decide) (by decide)

/-! ## C7: unknown speaker labels are dropped silently -/

/-- C7: if the dialogue turn list of a script contains a turn whose speaker
label is not in the name map, `parse_dialogue` produces exactly the segments
of the same script without that turn: the turn is dropped (no error — the
function is total and returns normally) while every other turn is still
processed. -/
theorem unknown_speaker_skipped (nameMap : List (List Char × Speaker)) (script : List Char)
    (t1 t2 : List (List Char × List Char)) (bad text : List Char)
    (hsplit : splitIntoTurns matchDialogueMarker script = t1 ++ (bad, text) :: t2)
    (hbad : lookupName nameMap bad = none) :
    parseDialogue nameMap script = (t1 ++ t2).foldl (processTurn (lookupName nameMap)) [] := by
  unfold parseDialogue
  rw [hsplit]
  have hskip : ∀ segs, processTurn (lookupName nameMap) segs (bad, text) = segs := by
    intro segs
    simp [processTurn, hbad]
  rw [List.foldl_append, List.foldl_cons, hskip, List.foldl_append]

theorem unknown_speaker_skipped_witness :
    parseDialogue defaultNameMap "Mike: Hello!\nBob: Hmm.\nSarah: Hi!".data
      = ([("Mike".data, "Hello!".data), ("Sarah".data, "Hi!".data)]).foldl
          (processTurn (lookupName defaultNameMap)) [] :=
  unknown_speaker_skipped defaultNameMap _ [("Mike".data, "Hello!".data)]
    [("Sarah".data, "Hi!".data)] "Bob".data "Hmm.".data (by decide) (by decide)

/-! ## C3: splitting of over-long turns -/

theorem collapseSpacesAux_mem :
    ∀ (fuel : Nat) (l : List Char) (c : Char), c ∈ l → isSpaceChar c = false →
      c ∈ collapseSpacesAux fuel l := by
  intro fuel
  induction fuel with
  | zero =>
    intro l c hc _
    cases l with
    | nil => cases hc
    | cons a t => exact hc
  | succ fuel ih =>
    intro l c hc hsp
    cases l with
    | nil => cases hc
    | cons a t =>
      by_cases ha : isSpaceChar a = true
      · have hca : c ≠ a := by intro h; rw [h] at hsp; rw [hsp] at ha; cases ha
        have hct : c ∈ (a :: t).dropWhile isSpaceChar := by
          have hsplit := List.takeWhile_append_dropWhile isSpaceChar (a :: t)
          rcases List.mem_append.1 (hsplit ▸ hc) with h1 | h1
          · exact absurd (List.mem_takeWhile_imp h1) (by rw [hsp]; simp)
          · exact h1
        by_cases h2 : 2 ≤ ((a :: t).takeWhile isSpaceChar).length
        · simp only [collapseSpacesAux, ha, if_pos, h2, ite_true]
          exact List.mem_cons_of_mem _ (ih _ c hct hsp)
        · simp only [collapseSpacesAux, ha, if_pos, h2, ite_false, ite_true]
          have hct' : c ∈ t := by
            rcases List.mem_cons.1 hc with h3 | h3
            · exact absurd h3 hca
            · exact h3
          exact List.mem_cons_of_mem _ (ih _ c hct' hsp)
      · simp only [collapseSpacesAux, ha, ite_false, Bool.false_eq_true]
        rcases List.mem_cons.1 hc with h3 | h3
        · rw [h3]; exact List.mem_cons_self _ _
        · exact List.mem_cons_of_mem _ (ih _ c h3 hsp)

theorem sentSplitAux_cover :
    ∀ (fuel : Nat) (prev : Option Char) (acc cs : List Char) (c : Char),
      (c ∈ acc ∨ c ∈ cs) → isSpaceChar c = false →
      ∃ s ∈ sentSplitAux fuel prev acc cs, c ∈ s := by
  intro fuel
  induction fuel with
  | zero =>
    intro prev acc cs c hc _
    cases cs with
    | nil =>
      refine ⟨acc.reverse, by simp [sentSplitAux], ?_⟩
      rcases hc with h | h
      · simpa using h
      · cases h
    | cons a t =>
      refine ⟨acc.reverse ++ a :: t, by simp [sentSplitAux], ?_⟩
      rcases hc with h | h
      · simp [h]
      · simp [h]
  | succ fuel ih =>
    intro prev acc cs c hc hsp
    cases cs with
    | nil =>
      refine ⟨acc.reverse, by simp [sentSplitAux], ?_⟩
      rcases hc with h | h
      · simpa using h
      · cases h
    | cons a t =>
      by_cases hcond : (isSpaceChar a && prevIsSentEnd prev) = true
      · simp only [sentSplitAux, hcond, ite_true]
        rcases hc with h | h
        · exact ⟨acc.reverse, by simp, by simpa using h⟩
        · have hmem : c ∈ (a :: t).dropWhile isSpaceChar := by
            have hsplit := List.takeWhile_append_dropWhile isSpaceChar (a :: t)
            rcases List.mem_append.1 (hsplit ▸ h) with h1 | h1
            · exact absurd (List.mem_takeWhile_imp h1) (by rw [hsp]; simp)
            · exact h1
          obtain ⟨s, hs, hcs⟩ := ih none [] ((a :: t).dropWhile isSpaceChar) c (Or.inr hmem) hsp
          exact ⟨s, List.mem_cons_of_mem _ hs, hcs⟩
      · simp only [sentSplitAux, hcond, ite_false, Bool.false_eq_true]
        apply ih (some a) (a :: acc) t c _ hsp
        rcases hc with h | h
        · exact Or.inl (List.mem_cons_of_mem _ h)
        · rcases List.mem_cons.1 h with h1 | h1
          · exact Or.inl (by rw [h1]; exact List.mem_cons_self _ _)
          · exact Or.inr h1

theorem splitLongGo_ne_nil :
    ∀ (sents parts : List (List Char)) (current : List Char),
      (parts ≠ [] ∨ ∃ c, (c ∈ current ∨ ∃ s ∈ sents, c ∈ s) ∧ isSpaceChar c = false) →
      splitLongGo sents parts current ≠ [] := by
  intro sents
  induction sents with
  | nil =>
    intro parts current hinv
    simp only [splitLongGo]
    by_cases hs : stripChars current = []
    · rw [if_pos hs]
      rcases hinv with h | ⟨c, hc, hsp⟩
      · exact h
      · rcases hc with hc | ⟨s, hs2, _⟩
        · have := (stripChars_eq_nil_iff.1 hs) c hc
          rw [hsp] at this; cases this
        · cases hs2
    · rw [if_neg hs]; simp
  | cons sent rest ih =>
    intro parts current hinv
    simp only [splitLongGo]
    by_cases hcond : maxSegmentChars < current.length + sent.length ∧ current ≠ []
    · rw [if_pos hcond]
      exact ih _ _ (Or.inl (by simp))
    · rw [if_neg hcond]
      apply ih
      rcases hinv with h | ⟨c, hc, hsp⟩
      · exact Or.inl h
      · refine Or.inr ⟨c, ?_, hsp⟩
        rcases hc with hc | ⟨s, hs2, hcs⟩
        · left
          by_cases hcur : current = []
          · rw [hcur] at hc; cases hc
          · simp [hcur, hc]
        · rcases List.mem_cons.1 hs2 with h1 | h1
          · left
            by_cases hcur : current = []
            · simp [hcur, ← h1, hcs]
            · simp [hcur, ← h1, hcs]
          · exact Or.inr ⟨s, h1, hcs⟩

theorem splitLongSegment_ne_nil (text : List Char) (c : Char)
    (hc : c ∈ text) (hsp : isSpaceChar c = false) : splitLongSegment text ≠ [] := by
  unfold splitLongSegment
  apply splitLongGo_ne_nil
  refine Or.inr ⟨c, ?_, hsp⟩
  right
  exact sentSplitAux_cover text.length none [] text c (Or.inr hc) hsp

theorem mem_enumFrom_one_le {α : Type} (xs : List α) (q : Nat × α)
    (hq : q ∈ List.enumFrom 1 xs) : 1 ≤ q.1 := by
  have h := (List.forall_mem_enumFrom (l := xs) (n := 1) (p := fun r => 1 ≤ r.1)).2
  exact h (fun i x => by omega) q hq

/-- C3 amended: a turn whose cleaned body exceeds the 500-character limit is
emitted as ONE OR MORE consecutive turns (the sentence-boundary repacking can
produce a single over-limit sub-turn, e.g. when the body has no sentence
boundary, and packed sub-turns may slightly exceed the limit because the
joining spaces are not counted), all with the same speaker and consecutive
indices continuing the running count; only the first sub-turn carries the
original cue list, and every trailing sub-turn has an empty cue list. -/
theorem long_turn_split_properties (resolve : List Char → Option Speaker)
    (turn : List Char × List Char) (speaker : Speaker) (segs : List SpeakerSegment)
    (hres : resolve turn.1 = some speaker)
    (hlong : maxSegmentChars < (cleanTurnText turn.2).2.length) :
    ∃ subs : List SpeakerSegment,
      processTurn resolve segs turn = segs ++ subs ∧
      subs.map (fun s => s.text) = splitLongSegment (cleanTurnText turn.2).2 ∧
      subs ≠ [] ∧
      (∀ s ∈ subs, s.speaker = speaker) ∧
      subs.map (fun s => s.index) = List.range' segs.length subs.length ∧
      subs.head?.map (fun s => s.cues) = some (cleanTurnText turn.2).1 ∧
      (∀ s ∈ subs.tail, s.cues = []) := by
  have hctne : (cleanTurnText turn.2).2 ≠ [] := by
    intro h
    rw [h] at hlong
    simp [maxSegmentChars] at hlong
  have hstrip_ne : stripChars (extractCues turn.2).2 ≠ [] := by
    intro h
    apply hctne
    show collapseSpaces (stripChars (extractCues turn.2).2) = []
    rw [h]
    rfl
  have hhead := stripChars_head_not_space hstrip_ne
  have hmem : (stripChars (extractCues turn.2).2).head hstrip_ne
      ∈ (cleanTurnText turn.2).2 := by
    show _ ∈ collapseSpaces (stripChars (extractCues turn.2).2)
    exact collapseSpacesAux_mem _ _ _ (List.head_mem hstrip_ne) hhead
  have hsplitne : splitLongSegment (cleanTurnText turn.2).2 ≠ [] :=
    splitLongSegment_ne_nil _ _ hmem hhead
  have hpt : processTurn resolve segs turn
      = emitTurn speaker (cleanTurnText turn.2).1 (cleanTurnText turn.2).2 segs := by
    simp [processTurn, hres, hctne]
  have hemit : emitTurn speaker (cleanTurnText turn.2).1 (cleanTurnText turn.2).2 segs
      = segs ++ (splitLongSegment (cleanTurnText turn.2).2).enum.map (fun p =>
          { speaker := speaker, text := p.2, index := segs.length + p.1,
            cues := if p.1 = 0 then (cleanTurnText turn.2).1 else [] }) := by
    simp [emitTurn, hlong]
  refine ⟨(splitLongSegment (cleanTurnText turn.2).2).enum.map (fun p =>
      { speaker := speaker, text := p.2, index := segs.length + p.1,
        cues := if p.1 = 0 then (cleanTurnText turn.2).1 else [] }),
    by rw [hpt, hemit], ?_, ?_, ?_, ?_, ?_, ?_⟩
  · rw [List.map_map]
    exact List.enum_map_snd _
  · simpa using hsplitne
  · intro s hs
    obtain ⟨p, _, rfl⟩ := List.mem_map.1 hs
    rfl
  · rw [List.map_map, List.length_map, List.enum_length]
    have h1 : ((fun s : SpeakerSegment => s.index) ∘ (fun p : Nat × List Char =>
        ({ speaker := speaker, text := p.2, index := segs.length + p.1,
           cues := if p.1 = 0 then (cleanTurnText turn.2).1 else [] } : SpeakerSegment)))
        = (fun x => segs.length + x) ∘ Prod.fst := rfl
    rw [h1, ← List.map_map, List.enum_map_fst, ← List.range'_eq_map_range]
  · cases hsp : splitLongSegment (cleanTurnText turn.2).2 with
    | nil => exact absurd hsp hsplitne
    | cons x xs => simp [List.enum_cons]
  · cases hsp : splitLongSegment (cleanTurnText turn.2).2 with
    | nil => exact absurd hsp hsplitne
    | cons x xs =>
      intro s hs
      rw [List.enum_cons] at hs
      simp only [List.map_cons, List.tail_cons] at hs
      obtain ⟨p, hp, rfl⟩ := List.mem_map.1 hs
      have h1 := mem_enumFrom_one_le xs p hp
      simp [show p.1 ≠ 0 by omega]

set_option maxRecDepth 100000 in
/-- C3 counterexample: the turn `"HOST_A: "` followed by 501 letters `a`
(cleaned body of 501 > 500 characters, no sentence boundary) is emitted as a
single sub-turn whose text still has 501 characters — neither "two or more
turns" nor "each at or under the limit" holds. -/
theorem long_turn_split_counterexample :
    maxSegmentChars < (cleanTurnText (List.replicate 501 'a')).2.length ∧
    (parseScript ("HOST_A: ".data ++ List.replicate 501 'a')).length = 1 ∧
    ∀ s ∈ parseScript ("HOST_A: ".data ++ List.replicate 501 'a'),
      maxSegmentChars < s.text.length := by
  exact ⟨by decide, by decide, by decide⟩

set_option maxRecDepth 100000 in
theorem long_turn_split_properties_witness :
    ∃ subs : List SpeakerSegment,
      processTurn hostResolve [] ("HOST_A".data, List.replicate 501 'a') = [] ++ subs ∧
      subs.map (fun s => s.text)
          = splitLongSegment (cleanTurnText (List.replicate 501 'a')).2 ∧
      subs ≠ [] ∧
      (∀ s ∈ subs, s.speaker = Speaker.HOST_A) ∧
      subs.map (fun s => s.index)
          = List.range' ([] : List SpeakerSegment).length subs.length ∧
      subs.head?.map (fun s => s.cues) = some (cleanTurnText (List.replicate 501 'a')).1 ∧
      (∀ s ∈ subs.tail, s.cues = []) :=
  long_turn_split_properties hostResolve ("HOST_A".data, List.replicate 501 'a')
    Speaker.HOST_A [] (by decide) (by decide)

/-! ## C10: unmatchable bracketed phrases -/

theorem isWordChar_not_space {c : Char} (h : isWordChar c = true) : isSpaceChar c = false := by
  cases hb : isSpaceChar c
  · rfl
  · have := isSpaceChar_not_word hb
    rw [h] at this
    cases this

theorem takeWhile_dropWhile_append {α : Type} (p : α → Bool) (xs ys : List α)
    (hx : ∀ c ∈ xs, p c = true) (hy : ∀ d, ys.head? = some d → p d = false) :
    (xs ++ ys).takeWhile p = xs ∧ (xs ++ ys).dropWhile p = ys := by
  induction xs with
  | nil =>
    simp only [List.nil_append]
    cases ys with
    | nil => exact ⟨rfl, rfl⟩
    | cons d t =>
      have hd := hy d rfl
      simp [List.takeWhile_cons, List.dropWhile_cons, hd]
  | cons x xs ih =>
    have hx0 : p x = true := hx x (by simp)
    have ih2 := ih (fun c hc => hx c (by simp [hc]))
    simp [List.takeWhile_cons, List.dropWhile_cons, hx0, ih2.1, ih2.2]

theorem tryCueMatch_head_ne {c : Char} {t : List Char} (h : c ≠ '[') :
    tryCueMatch (c :: t) = none := by
  simp [tryCueMatch, h]

theorem tryCueMatch_fail_three (phrase post : List Char) (hTW : ThreeWordPhrase phrase) :
    tryCueMatch ('[' :: (phrase ++ ']' :: post)) = none := by
  obtain ⟨w1, s1, w2, s2, rest, hph, hw1ne, hw1, hs1ne, hs1, hw2ne, hw2,
    hs2ne, hs2, _hrest, d, t, hrd, _hd⟩ := hTW
  subst hrd
  rcases s1 with _ | ⟨e1, s1'⟩
  · exact absurd rfl hs1ne
  rcases w2 with _ | ⟨f2, w2'⟩
  · exact absurd rfl hw2ne
  rcases s2 with _ | ⟨e2, s2'⟩
  · exact absurd rfl hs2ne
  subst hph
  have hEq : (w1 ++ (e1 :: s1') ++ (f2 :: w2') ++ (e2 :: s2') ++ d :: t) ++ ']' :: post
      = w1 ++ (e1 :: (s1' ++ (f2 :: (w2' ++ (e2 :: (s2' ++ (d :: (t ++ (']' :: post))))))))) := by
    simp [List.append_assoc]
  rw [hEq]
  have h1 := takeWhile_dropWhile_append isWordChar w1
    (e1 :: (s1' ++ (f2 :: (w2' ++ (e2 :: (s2' ++ (d :: (t ++ (']' :: post)))))))))
    hw1 (fun dd hdd => by
      injection hdd with hdd
      rw [← hdd]
      exact isSpaceChar_not_word (hs1 e1 (List.mem_cons_self _ _)))
  have he1 : e1 ≠ ']' := by
    intro h
    have := hs1 e1 (List.mem_cons_self _ _)
    rw [h] at this
    exact absurd this (by decide)
  have h2 := takeWhile_dropWhile_append isSpaceChar (e1 :: s1')
    (f2 :: (w2' ++ (e2 :: (s2' ++ (d :: (t ++ (']' :: post)))))))
    hs1 (fun dd hdd => by
      injection hdd with hdd
      rw [← hdd]
      exact isWordChar_not_space (hw2 f2 (List.mem_cons_self _ _)))
  simp only [List.cons_append] at h2
  have h3 := takeWhile_dropWhile_append isWordChar (f2 :: w2')
    (e2 :: (s2' ++ (d :: (t ++ (']' :: post)))))
    hw2 (fun dd hdd => by
      injection hdd with hdd
      rw [← hdd]
      exact isSpaceChar_not_word (hs2 e2 (List.mem_cons_self _ _)))
  simp only [List.cons_append] at h3
  have he2 : e2 ≠ ']' := by
    intro h
    have := hs2 e2 (List.mem_cons_self _ _)
    rw [h] at this
    exact absurd this (by decide)
  simp [tryCueMatch, h1.1, h1.2, hw1ne, he1, h2.1, h2.2, h3.1, h3.2, he2]

theorem head_dropWhile_false_of_eq {p : Char → Bool} {l t : List Char} {d : Char}
    (h : l.dropWhile p = d :: t) : p d = false := by
  have hne : l.dropWhile p ≠ [] := by rw [h]; simp
  have h0 := List.head_dropWhile_not p l hne
  have h1 : (l.dropWhile p).head? = some d := by rw [h]; rfl
  rw [List.head?_eq_head hne] at h1
  injection h1 with h1
  rw [← h1]
  exact h0

theorem tryCueMatch_fail_odd (phrase post : List Char)
    (hrb : ']' ∉ phrase) (hodd : OddCharPhrase phrase) :
    tryCueMatch ('[' :: (phrase ++ ']' :: post)) = none := by
  obtain ⟨c0, hc0, hc0w, hc0s⟩ := hodd
  have hBne : phrase.dropWhile isWordChar ≠ [] := by
    intro h
    have := List.dropWhile_eq_nil_iff.1 h c0 hc0
    rw [hc0w] at this
    cases this
  rcases hB : phrase.dropWhile isWordChar with _ | ⟨d1, B'⟩
  · exact absurd hB hBne
  have hd1w : isWordChar d1 = false := head_dropWhile_false_of_eq hB
  have hd1mem : d1 ∈ phrase := by
    have : d1 ∈ phrase.dropWhile isWordChar := by rw [hB]; simp
    exact (List.dropWhile_suffix isWordChar).subset this
  have hd1b : d1 ≠ ']' := by
    intro h
    rw [h] at hd1mem
    exact hrb hd1mem
  have hAall : ∀ c ∈ phrase.takeWhile isWordChar, isWordChar c = true :=
    fun c hc => List.mem_takeWhile_imp hc
  have hphB : phrase = phrase.takeWhile isWordChar ++ d1 :: B' := by
    conv_lhs => rw [← List.takeWhile_append_dropWhile isWordChar phrase]
    rw [hB]
  have hEq : phrase ++ ']' :: post
      = phrase.takeWhile isWordChar ++ (d1 :: (B' ++ ']' :: post)) := by
    conv_lhs => rw [hphB]
    simp [List.append_assoc]
  rw [hEq]
  have h1 := takeWhile_dropWhile_append isWordChar (phrase.takeWhile isWordChar)
    (d1 :: (B' ++ ']' :: post)) hAall
    (fun dd hdd => by injection hdd with hdd; rw [← hdd]; exact hd1w)
  by_cases hA : phrase.takeWhile isWordChar = []
  · simp [tryCueMatch, hA, List.takeWhile_cons, hd1w]
  by_cases hd1s : isSpaceChar d1 = true
  · -- d1 is whitespace: scan the whitespace run, then require a word run,
    -- then `]` — one of these must fail because the odd character is in the way
    have hCall : ∀ c ∈ (d1 :: B').takeWhile isSpaceChar, isSpaceChar c = true :=
      fun c hc => List.mem_takeWhile_imp hc
    have hDne : (d1 :: B').dropWhile isSpaceChar ≠ [] := by
      intro h
      have hc0B : c0 ∈ d1 :: B' := by
        have := hphB ▸ hc0
        rcases List.mem_append.1 this with h1m | h1m
        · have := List.mem_takeWhile_imp h1m
          rw [hc0w] at this; cases this
        · exact h1m
      have := List.dropWhile_eq_nil_iff.1 h c0 hc0B
      rw [hc0s] at this
      cases this
    rcases hD : (d1 :: B').dropWhile isSpaceChar with _ | ⟨d2, D'⟩
    · exact absurd hD hDne
    have hd2s : isSpaceChar d2 = false := head_dropWhile_false_of_eq hD
    have hBD : d1 :: B' = (d1 :: B').takeWhile isSpaceChar ++ d2 :: D' := by
      conv_lhs => rw [← List.takeWhile_append_dropWhile isSpaceChar (d1 :: B')]
      rw [hD]
    have hEq2 : d1 :: (B' ++ ']' :: post)
        = (d1 :: B').takeWhile isSpaceChar ++ (d2 :: (D' ++ ']' :: post)) := by
      have : d1 :: (B' ++ ']' :: post) = (d1 :: B') ++ ']' :: post := by simp
      rw [this]
      conv_lhs => rw [hBD]
      simp [List.append_assoc]
    have h2 := takeWhile_dropWhile_append isSpaceChar ((d1 :: B').takeWhile isSpaceChar)
      (d2 :: (D' ++ ']' :: post)) hCall
      (fun dd hdd => by injection hdd with hdd; rw [← hdd]; exact hd2s)
    rw [← hEq2] at h2
    have hCne : (d1 :: B').takeWhile isSpaceChar ≠ [] := by
      rw [List.takeWhile_cons, hd1s]
      simp
    by_cases hd2w : isWordChar d2 = true
    · -- word run after the whitespace run; the odd character still lies beyond
      have hEall : ∀ c ∈ (d2 :: D').takeWhile isWordChar, isWordChar c = true :=
        fun c hc => List.mem_takeWhile_imp hc
      have hFne : (d2 :: D').dropWhile isWordChar ≠ [] := by
        intro h
        have hc0D : c0 ∈ d2 :: D' := by
          have hc0B : c0 ∈ d1 :: B' := by
            have := hphB ▸ hc0
            rcases List.mem_append.1 this with h1m | h1m
            · have := List.mem_takeWhile_imp h1m
              rw [hc0w] at this; cases this
            · exact h1m
          have := hBD ▸ hc0B
          rcases List.mem_append.1 this with h1m | h1m
          · have := List.mem_takeWhile_imp h1m
            rw [hc0s] at this; cases this
          · exact h1m
        have := List.dropWhile_eq_nil_iff.1 h c0 hc0D
        rw [hc0w] at this
        cases this
      rcases hF : (d2 :: D').dropWhile isWordChar with _ | ⟨d3, F'⟩
      · exact absurd hF hFne
      have hd3w : isWordChar d3 = false := head_dropWhile_false_of_eq hF
      have hd3mem : d3 ∈ phrase := by
        have h3m : d3 ∈ (d2 :: D').dropWhile isWordChar := by rw [hF]; simp
        have h3m2 : d3 ∈ d2 :: D' := (List.dropWhile_suffix isWordChar).subset h3m
        have h3m3 : d3 ∈ (d1 :: B').dropWhile isSpaceChar := by rw [hD]; exact h3m2
        have h3m4 : d3 ∈ d1 :: B' := (List.dropWhile_suffix isSpaceChar).subset h3m3
        rw [hphB]
        exact List.mem_append.2 (Or.inr h3m4)
      have hd3b : d3 ≠ ']' := by
        intro h
        rw [h] at hd3mem
        exact hrb hd3mem
      have hDF : d2 :: D' = (d2 :: D').takeWhile isWordChar ++ d3 :: F' := by
        conv_lhs => rw [← List.takeWhile_append_dropWhile isWordChar (d2 :: D')]
        rw [hF]
      have hEq3 : d2 :: (D' ++ ']' :: post)
          = (d2 :: D').takeWhile isWordChar ++ (d3 :: (F' ++ ']' :: post)) := by
        have : d2 :: (D' ++ ']' :: post) = (d2 :: D') ++ ']' :: post := by simp
        rw [this]
        conv_lhs => rw [hDF]
        simp [List.append_assoc]
      have h3 := takeWhile_dropWhile_append isWordChar ((d2 :: D').takeWhile isWordChar)
        (d3 :: (F' ++ ']' :: post)) hEall
        (fun dd hdd => by injection hdd with hdd; rw [← hdd]; exact hd3w)
      rw [← hEq3] at h3
      have hEne : (d2 :: D').takeWhile isWordChar ≠ [] := by
        rw [List.takeWhile_cons, hd2w]
        simp
      simp [tryCueMatch, h1.1, h1.2, hA, hd1b, h2.1, h2.2, hCne, h3.1, h3.2, hEne, hd3b]
    · -- the character right after the whitespace run is not a word character:
      -- the second word run is empty and the match fails
      have hE : (d2 :: (D' ++ ']' :: post)).takeWhile isWordChar = [] := by
        simp [List.takeWhile_cons, hd2w]
      simp [tryCueMatch, h1.1, h1.2, hA, hd1b, h2.1, h2.2, hCne, hE]
  · -- the character after the first word run is neither `]` nor whitespace:
    -- the optional whitespace-word group cannot start and the match fails
    have hsp : (d1 :: (B' ++ ']' :: post)).takeWhile isSpaceChar = [] := by
      rw [List.takeWhile_cons]
      simp [hd1s]
    simp [tryCueMatch, h1.1, h1.2, hA, hd1b, hsp]

theorem tryCueMatch_some_spec {cs q rest : List Char}
    (h : tryCueMatch cs = some (q, rest)) :
    CueShape q ∧ ∃ inner, cs = '[' :: inner ++ rest ∧ '[' ∉ inner := by
  cases cs with
  | nil => simp [tryCueMatch] at h
  | cons c t =>
    by_cases hc : c = '['
    · subst hc
      by_cases hA : t.takeWhile isWordChar = []
      · simp [tryCueMatch, hA] at h
      rcases hB : t.dropWhile isWordChar with _ | ⟨d, B'⟩
      · simp [tryCueMatch, hA, hB] at h
      by_cases hd : d = ']'
      · subst hd
        simp only [tryCueMatch, hB, if_neg hA] at h
        injection h with h2
        injection h2 with h2 h3
        subst h2 h3
        constructor
        · exact Or.inl ⟨hA, fun c hc => List.mem_takeWhile_imp hc⟩
        · refine ⟨t.takeWhile isWordChar ++ [']'], ?_, ?_⟩
          · have := List.takeWhile_append_dropWhile isWordChar t
            conv_lhs => rw [← this, hB]
            simp
          · intro hm
            rcases List.mem_append.1 hm with hm | hm
            · have := List.mem_takeWhile_imp hm
              exact absurd this (by decide)
            · simp at hm
      · have hd1w : isWordChar d = false := head_dropWhile_false_of_eq hB
        by_cases hsp : (d :: B').takeWhile isSpaceChar = []
        · rw [← hB] at hsp
          simp [tryCueMatch, hA, hB, hd, hB ▸ hsp] at h
        rcases hD : (d :: B').dropWhile isSpaceChar with _ | ⟨d2, D'⟩
        · have : ∀ b ∈ (d :: B'), isSpaceChar b = true := List.dropWhile_eq_nil_iff.1 hD
          simp [tryCueMatch, hA, hB, hd, hD] at h
        by_cases hE : (d2 :: D').takeWhile isWordChar = []
        · simp [tryCueMatch, hA, hB, hd, hD, hsp, hE] at h
        rcases hF : (d2 :: D').dropWhile isWordChar with _ | ⟨e, F'⟩
        · simp [tryCueMatch, hA, hB, hd, hD, hsp, hE, hF] at h
        by_cases he : e = ']'
        · subst he
          simp only [tryCueMatch, hB, hD, hF, if_neg hA, if_neg hsp, if_neg hE] at h
          rw [show (match d :: B' with
              | ']' :: r => some (t.takeWhile isWordChar, r)
              | _ => some (t.takeWhile isWordChar ++ (d :: B').takeWhile isSpaceChar
                  ++ (d2 :: D').takeWhile isWordChar, F'))
              = some (t.takeWhile isWordChar ++ (d :: B').takeWhile isSpaceChar
                  ++ (d2 :: D').takeWhile isWordChar, F') from by simp [hd]] at h
          injection h with h2
          injection h2 with h2 h3
          subst h2 h3
          constructor
          · refine Or.inr ⟨t.takeWhile isWordChar, (d :: B').takeWhile isSpaceChar,
              (d2 :: D').takeWhile isWordChar, rfl, hA, ?_, hsp, ?_, hE, ?_⟩
            · exact fun c hc => List.mem_takeWhile_imp hc
            · exact fun c hc => List.mem_takeWhile_imp hc
            · exact fun c hc => List.mem_takeWhile_imp hc
          · refine ⟨t.takeWhile isWordChar ++ (d :: B').takeWhile isSpaceChar
              ++ (d2 :: D').takeWhile isWordChar ++ [']'], ?_, ?_⟩
            · have h1 := List.takeWhile_append_dropWhile isWordChar t
              have h2 := List.takeWhile_append_dropWhile isSpaceChar (d :: B')
              have h3 := List.takeWhile_append_dropWhile isWordChar (d2 :: D')
              conv_lhs => rw [← h1, hB, ← h2, hD, ← h3, hF]
              simp [List.append_assoc]
            · intro hm
              rcases List.mem_append.1 hm with hm | hm
              · rcases List.mem_append.1 hm with hm | hm
                · rcases List.mem_append.1 hm with hm | hm
                  · exact absurd (List.mem_takeWhile_imp hm) (by decide)
                  · exact absurd (List.mem_takeWhile_imp hm) (by decide)
                · exact absurd (List.mem_takeWhile_imp hm) (by decide)
              · simp at hm
        · simp [tryCueMatch, hB, hD, hF, hA, hsp, hE, hd, he] at h
    · rw [tryCueMatch_head_ne hc] at h
      cases h

theorem append_overlap {α : Type} (b : α) :
    ∀ (inner rest pre tail : List α), inner ++ rest = pre ++ b :: tail → b ∉ inner →
      ∃ d, rest = d ++ b :: tail := by
  intro inner
  induction inner with
  | nil =>
    intro rest pre tail h _
    exact ⟨pre, by simpa using h⟩
  | cons i inner' ih =>
    intro rest pre tail h hb
    cases pre with
    | nil =>
      simp only [List.nil_append, List.cons_append] at h
      injection h with h1 _
      apply absurd _ hb
      rw [← h1]
      exact List.mem_cons_self _ _
    | cons p pre' =>
      simp only [List.cons_append] at h
      injection h with _ h2
      exact ih rest pre' tail h2 (fun hm => hb (List.mem_cons_of_mem _ hm))

theorem cueScanAux_zero_snd (cs : List Char) : (cueScanAux 0 cs).2 = cs := by
  cases cs <;> rfl

theorem cueScanAux_no_lb :
    ∀ (xs : List Char) (fuel : Nat) (rest : List Char), (∀ c ∈ xs, c ≠ '[') →
      ∃ t, (cueScanAux fuel (xs ++ rest)).2 = xs ++ t := by
  intro xs
  induction xs with
  | nil => intro fuel rest _; exact ⟨(cueScanAux fuel rest).2, by simp⟩
  | cons x xs' ih =>
    intro fuel rest hx
    cases fuel with
    | zero => exact ⟨rest, by simp [cueScanAux_zero_snd]⟩
    | succ f =>
      have hm := tryCueMatch_head_ne (t := xs' ++ rest) (hx x (by simp))
      obtain ⟨t, ht⟩ := ih f rest (fun c hc => hx c (by simp [hc]))
      exact ⟨t, by simp [cueScanAux, hm, ht]⟩

theorem cueScanAux_shapes :
    ∀ (fuel : Nat) (cs q : List Char), q ∈ (cueScanAux fuel cs).1 → CueShape q := by
  intro fuel
  induction fuel with
  | zero =>
    intro cs q hq
    cases cs <;> simp [cueScanAux] at hq
  | succ f ih =>
    intro cs q hq
    cases cs with
    | nil => simp [cueScanAux] at hq
    | cons c t =>
      rcases hm : tryCueMatch (c :: t) with _ | ⟨⟨cue, rest⟩⟩
      · simp only [cueScanAux, hm] at hq
        exact ih t q hq
      · simp only [cueScanAux, hm] at hq
        rcases List.mem_cons.1 hq with h1 | h1
        · rw [h1]
          exact (tryCueMatch_some_spec hm).1
        · exact ih rest q h1

theorem cueScanAux_keeps_unmatchable (phrase post : List Char)
    (hlb : '[' ∉ phrase)
    (hfail : ∀ post2 : List Char, tryCueMatch ('[' :: (phrase ++ ']' :: post2)) = none) :
    ∀ (fuel : Nat) (pre : List Char),
      ('[' :: phrase ++ [']']) <:+: (cueScanAux fuel (pre ++ '[' :: phrase ++ ']' :: post)).2 := by
  intro fuel
  induction fuel with
  | zero =>
    intro pre
    rw [cueScanAux_zero_snd]
    exact ⟨pre, post, by simp [List.append_assoc]⟩
  | succ f ih =>
    intro pre
    cases pre with
    | nil =>
      have hm := hfail post
      obtain ⟨t, ht⟩ := cueScanAux_no_lb (phrase ++ [']']) f post (by
        intro c hcm
        rcases List.mem_append.1 hcm with hcm | hcm
        · intro he; rw [he] at hcm; exact hlb hcm
        · simp at hcm; rw [hcm]; decide)
      have hstep : (cueScanAux (f + 1) ([] ++ '[' :: phrase ++ ']' :: post)).2
          = '[' :: (cueScanAux f (phrase ++ ']' :: post)).2 := by
        show (cueScanAux (f + 1) ('[' :: (phrase ++ ']' :: post))).2
          = '[' :: (cueScanAux f (phrase ++ ']' :: post)).2
        simp [cueScanAux, hm]
      rw [hstep]
      have hassoc : phrase ++ ']' :: post = (phrase ++ [']']) ++ post := by simp
      rw [hassoc, ht]
      exact ⟨[], t, by simp [List.append_assoc]⟩
    | cons c pre' =>
      have hgoal : (c :: pre') ++ '[' :: phrase ++ ']' :: post
          = c :: (pre' ++ '[' :: (phrase ++ ']' :: post)) := by simp
      rcases hm : tryCueMatch (c :: (pre' ++ '[' :: (phrase ++ ']' :: post))) with _ | ⟨⟨cue, rest⟩⟩
      · have hstep : (cueScanAux (f + 1) ((c :: pre') ++ '[' :: phrase ++ ']' :: post)).2
            = c :: (cueScanAux f (pre' ++ '[' :: (phrase ++ ']' :: post))).2 := by
          rw [hgoal]
          simp [cueScanAux, hm]
        rw [show (c :: pre') ++ '[' :: phrase ++ ']' :: post
            = c :: pre' ++ '[' :: phrase ++ ']' :: post from rfl] at hstep
        rw [hstep]
        obtain ⟨s, t2, hst⟩ := ih pre'
        refine ⟨c :: s, t2, ?_⟩
        simp only [List.cons_append, List.append_assoc] at hst ⊢
        rw [hst]
      · obtain ⟨_, inner, hspan, hinner⟩ := tryCueMatch_some_spec hm
        injection hspan with h1 h2
        obtain ⟨d, hd⟩ := append_overlap '[' inner rest pre' (phrase ++ ']' :: post)
          h2.symm hinner
        have hstep : (cueScanAux (f + 1) ((c :: pre') ++ '[' :: phrase ++ ']' :: post)).2
            = (cueScanAux f rest).2 := by
          rw [hgoal]
          simp [cueScanAux, hm]
        rw [show (c :: pre') ++ '[' :: phrase ++ ']' :: post
            = c :: pre' ++ '[' :: phrase ++ ']' :: post from rfl] at hstep
        rw [hstep, hd]
        have := ih d
        simp only [List.cons_append, List.append_assoc] at this ⊢
        exact this

theorem edges_append (l1 l2 : List Bool) :
    ∀ prev, edges prev (l1 ++ l2) = edges prev l1 + edges (l1.getLastD prev) l2 := by
  induction l1 with
  | nil => intro prev; simp [edges, List.getLastD]
  | cons b t ih =>
    intro prev
    have h1 : (b :: t) ++ l2 = b :: (t ++ l2) := rfl
    rw [h1, edges, edges, ih b, List.getLastD_cons]
    omega

theorem edges_all_false {l : List Bool} (h : ∀ b ∈ l, b = false) :
    ∀ prev, edges prev l = 0 := by
  induction l with
  | nil => intro prev; rfl
  | cons b t ih =>
    intro prev
    have hb : b = false := h b (by simp)
    have ht := ih (fun x hx => h x (by simp [hx])) false
    subst hb
    simp [edges, ht]

theorem edges_all_true_from_true {l : List Bool} (h : ∀ b ∈ l, b = true) :
    edges true l = 0 := by
  induction l with
  | nil => rfl
  | cons b t ih =>
    have hb : b = true := h b (by simp)
    have ht := ih (fun x hx => h x (by simp [hx]))
    subst hb
    simp [edges, ht]

theorem edges_all_true_from_false {l : List Bool} (h : ∀ b ∈ l, b = true) (hne : l ≠ []) :
    edges false l = 1 := by
  cases l with
  | nil => exact absurd rfl hne
  | cons b t =>
    have hb : b = true := h b (by simp)
    have ht := @edges_all_true_from_true t (fun x hx => h x (by simp [hx]))
    subst hb
    simp [edges, ht]

theorem getLastD_of_all {l : List Bool} {v : Bool} (hne : l ≠ []) (h : ∀ b ∈ l, b = v) :
    ∀ prev, l.getLastD prev = v := by
  induction l with
  | nil => exact absurd rfl hne
  | cons b t ih =>
    intro prev
    rw [List.getLastD_cons]
    cases t with
    | nil => exact h b (by simp)
    | cons c t' => exact ih (by simp) (fun x hx => h x (by simp [hx])) b

theorem CueShape_edges {q : List Char} (h : CueShape q) :
    edges false (q.map isSpaceChar) ≤ 1 := by
  rcases h with ⟨_, hall⟩ | ⟨w1, s, w2, rfl, hw1ne, hw1, hsne, hs, hw2ne, hw2⟩
  · have hf : ∀ b ∈ q.map isSpaceChar, b = false := by
      intro b hb
      obtain ⟨c, hc, rfl⟩ := List.mem_map.1 hb
      exact isWordChar_not_space (hall c hc)
    rw [edges_all_false hf false]
    omega
  · have hEq : w1 ++ s ++ w2 = w1 ++ (s ++ w2) := by simp [List.append_assoc]
    rw [hEq, List.map_append, List.map_append]
    have hm1 : ∀ b ∈ w1.map isSpaceChar, b = false := by
      intro b hb
      obtain ⟨c, hc, rfl⟩ := List.mem_map.1 hb
      exact isWordChar_not_space (hw1 c hc)
    have hns : ∀ b ∈ s.map isSpaceChar, b = true := by
      intro b hb
      obtain ⟨c, hc, rfl⟩ := List.mem_map.1 hb
      exact hs c hc
    have hm2 : ∀ b ∈ w2.map isSpaceChar, b = false := by
      intro b hb
      obtain ⟨c, hc, rfl⟩ := List.mem_map.1 hb
      exact isWordChar_not_space (hw2 c hc)
    have hm1ne : w1.map isSpaceChar ≠ [] := by
      intro hh
      exact hw1ne (List.map_eq_nil_iff.1 hh)
    have hnsne : s.map isSpaceChar ≠ [] := by
      intro hh
      exact hsne (List.map_eq_nil_iff.1 hh)
    rw [edges_append, edges_all_false hm1 false, getLastD_of_all hm1ne hm1 false,
      edges_append, edges_all_true_from_false hns hnsne,
      getLastD_of_all hnsne hns false, edges_all_false hm2 true]

theorem ThreeWordPhrase_edges {phrase : List Char} (h : ThreeWordPhrase phrase) :
    2 ≤ edges false (phrase.map isSpaceChar) := by
  obtain ⟨w1, s1, w2, s2, rest, rfl, hw1ne, hw1, hs1ne, hs1, hw2ne, hw2,
    hs2ne, hs2, _, _, _, _, _⟩ := h
  have hEq : w1 ++ s1 ++ w2 ++ s2 ++ rest = w1 ++ (s1 ++ (w2 ++ (s2 ++ rest))) := by
    simp [List.append_assoc]
  rw [hEq, List.map_append, List.map_append, List.map_append, List.map_append]
  have hm1 : ∀ b ∈ w1.map isSpaceChar, b = false := by
    intro b hb
    obtain ⟨c, hc, rfl⟩ := List.mem_map.1 hb
    exact isWordChar_not_space (hw1 c hc)
  have hn1 : ∀ b ∈ s1.map isSpaceChar, b = true := by
    intro b hb
    obtain ⟨c, hc, rfl⟩ := List.mem_map.1 hb
    exact hs1 c hc
  have hm2 : ∀ b ∈ w2.map isSpaceChar, b = false := by
    intro b hb
    obtain ⟨c, hc, rfl⟩ := List.mem_map.1 hb
    exact isWordChar_not_space (hw2 c hc)
  have hn2 : ∀ b ∈ s2.map isSpaceChar, b = true := by
    intro b hb
    obtain ⟨c, hc, rfl⟩ := List.mem_map.1 hb
    exact hs2 c hc
  have hm1ne : w1.map isSpaceChar ≠ [] := fun hh => hw1ne (List.map_eq_nil_iff.1 hh)
  have hn1ne : s1.map isSpaceChar ≠ [] := fun hh => hs1ne (List.map_eq_nil_iff.1 hh)
  have hm2ne : w2.map isSpaceChar ≠ [] := fun hh => hw2ne (List.map_eq_nil_iff.1 hh)
  have hn2ne : s2.map isSpaceChar ≠ [] := fun hh => hs2ne (List.map_eq_nil_iff.1 hh)
  rw [edges_append, edges_all_false hm1 false, getLastD_of_all hm1ne hm1 false,
    edges_append, edges_all_true_from_false hn1 hn1ne, getLastD_of_all hn1ne hn1 false,
    edges_append, edges_all_false hm2 true, getLastD_of_all hm2ne hm2 true,
    edges_append, edges_all_true_from_false hn2 hn2ne]
  omega

theorem not_cueShape_of_three {phrase : List Char} (h : ThreeWordPhrase phrase) :
    ¬ CueShape phrase := by
  intro hc
  have h1 := CueShape_edges hc
  have h2 := ThreeWordPhrase_edges h
  omega

theorem not_cueShape_of_odd {phrase : List Char} (hodd : OddCharPhrase phrase) :
    ¬ CueShape phrase := by
  obtain ⟨c0, hc0, hc0w, hc0s⟩ := hodd
  rintro (⟨_, hall⟩ | ⟨w1, s, w2, heq, _, hw1, _, hs, _, hw2⟩)
  · rw [hall c0 hc0] at hc0w
    cases hc0w
  · rw [heq] at hc0
    rcases List.mem_append.1 hc0 with h | h
    · rcases List.mem_append.1 h with h | h
      · rw [hw1 c0 h] at hc0w; cases hc0w
      · rw [hs c0 h] at hc0s; cases hc0s
    · rw [hw2 c0 h] at hc0w; cases hc0w

/-- C10 amended: for every turn body of the form `pre ++ "[" ++ phrase ++ "]"
++ post` where the bracket-free phrase has three or more whitespace-separated
words, or contains a character that is neither a word character nor
whitespace, the cue extraction of `parse_script`/`parse_dialogue` does not
add the phrase to the cue list, and the bracketed text survives cue-marker
removal verbatim (in the final spoken text its interior whitespace runs may
additionally be collapsed by the whitespace normalisation step). -/
theorem unmatchable_phrase_preserved (pre phrase post : List Char)
    (hU : UnmatchablePhrase phrase) :
    phrase ∉ (extractCues (pre ++ '[' :: phrase ++ ']' :: post)).1 ∧
    ('[' :: phrase ++ [']']) <:+: (extractCues (pre ++ '[' :: phrase ++ ']' :: post)).2 := by
  obtain ⟨hne, hlb, hrb, hcase⟩ := hU
  have hfail : ∀ post2 : List Char, tryCueMatch ('[' :: (phrase ++ ']' :: post2)) = none := by
    intro post2
    rcases hcase with h | h
    · exact tryCueMatch_fail_three _ _ h
    · exact tryCueMatch_fail_odd _ _ hrb h
  constructor
  · intro hmem
    have hshape := cueScanAux_shapes (pre ++ '[' :: phrase ++ ']' :: post).length
      (pre ++ '[' :: phrase ++ ']' :: post) phrase hmem
    rcases hcase with h | h
    · exact not_cueShape_of_three h hshape
    · exact not_cueShape_of_odd h hshape
  · exact cueScanAux_keeps_unmatchable phrase post hlb hfail _ pre

/-- C10 counterexample: for the turn body `"[a  b  c] hi"` (a three-word
bracketed phrase with doubled separators), the phrase is indeed not added to
the cue list, but the claim's "remains verbatim in the emitted spoken text"
fails: the emitted text is `"[a b c] hi"` — the whitespace-collapse step has
rewritten the interior of the bracketed phrase. -/
theorem unmatchable_phrase_counterexample :
    (parseDialogue defaultNameMap "Mike: [a  b  c] hi".data).map (fun s => (s.text, s.cues))
        = [("[a b c] hi".data, ([] : List (List Char)))] ∧
    ¬ ("[a  b  c]".data <:+: "[a b c] hi".data) := by
  exact ⟨by decide, by decide⟩

theorem unmatchable_phrase_preserved_witness :
    "a b c".data ∉ (extractCues ("say ".data ++ '[' :: "a b c".data ++ ']' :: " now".data)).1 ∧
    ('[' :: "a b c".data ++ [']'])
        <:+: (extractCues ("say ".data ++ '[' :: "a b c".data ++ ']' :: " now".data)).2 :=
  unmatchable_phrase_preserved "say ".data "a b c".data " now".data
    ⟨by decide, by decide, by decide, Or.inl ⟨"a".data, " ".data, "b".data, " ".data, "c".data,
      by decide, by decide, by decide, by decide, by decide, by decide, by decide, by decide,
      by decide, by decide, ⟨'c', [], by decide, by decide⟩⟩⟩

/-! ## C8: serialization round-trip -/

theorem intercalate_cons_cons (sep x y : List Char) (t : List (List Char)) :
    List.intercalate sep (x :: y :: t) = x ++ sep ++ List.intercalate sep (y :: t) := by
  simp [List.intercalate, List.intersperse]

theorem intercalate_ne_nil (sep x : List Char) (t : List (List Char)) (hx : x ≠ []) :
    List.intercalate sep (x :: t) ≠ [] := by
  cases t with
  | nil => simpa [List.intercalate] using hx
  | cons y t' =>
    rw [intercalate_cons_cons]
    simp [List.append_eq_nil, hx]

theorem cuesPfx_eq_flatten :
    ∀ cues : List (List Char), cuesPfx cues = (cues.map cueBlock).flatten := by
  intro cues
  induction cues with
  | nil => rfl
  | cons q rest ih =>
    cases rest with
    | nil => simp [cuesPfx, cueBlock, List.intercalate]
    | cons r t =>
      have hrest : List.intercalate [' ']
          (('[' :: r ++ [']']) :: t.map (fun c => '[' :: c ++ [']'])) ≠ [] :=
        intercalate_ne_nil _ _ _ (by simp)
      have hall : List.intercalate [' ']
          (('[' :: q ++ [']']) :: ('[' :: r ++ [']']) :: t.map (fun c => '[' :: c ++ [']']))
          ≠ [] := intercalate_ne_nil _ _ _ (by simp)
      simp only [cuesPfx, List.map_cons] at ih ⊢
      rw [if_neg hrest] at ih
      rw [if_neg hall, intercalate_cons_cons, List.flatten_cons, ← ih]
      simp [cueBlock, List.append_assoc]

theorem dropWhile_append_all {p : Char → Bool} (l1 l2 : List Char)
    (h : ∀ c ∈ l1, p c = true) : (l1 ++ l2).dropWhile p = l2.dropWhile p := by
  induction l1 with
  | nil => rfl
  | cons a t ih =>
    simp only [List.cons_append, List.dropWhile_cons, h a (by simp), if_true]
    exact ih (fun c hc => h c (by simp [hc]))

theorem cuesPfx_no_nl (cues : List (List Char)) (h : ∀ q ∈ cues, '\n' ∉ q) :
    '\n' ∉ cuesPfx cues := by
  rw [cuesPfx_eq_flatten]
  intro hm
  simp only [List.mem_flatten, List.mem_map] at hm
  obtain ⟨l, ⟨q, hq, rfl⟩, hmem⟩ := hm
  simp only [cueBlock] at hmem
  rcases List.mem_cons.1 hmem with h1 | h1
  · cases h1
  rcases List.mem_append.1 h1 with h2 | h2
  · exact h q hq h2
  · simp at h2

theorem tryCueMatch_of_shape {q : List Char} (h : CueShape q) (tail : List Char) :
    tryCueMatch ('[' :: (q ++ ']' :: tail)) = some (q, tail) := by
  rcases h with ⟨hne, hw⟩ | ⟨w1, s, w2, hq, hw1ne, hw1, hsne, hs, hw2ne, hw2⟩
  · have hsplit := takeWhile_dropWhile_append isWordChar q (']' :: tail) hw
      (fun d hd => by injection hd with hd; rw [← hd]; decide)
    simp only [tryCueMatch, hsplit.1, hsplit.2, if_neg hne]
  · subst hq
    rcases s with _ | ⟨e, s'⟩
    · exact absurd rfl hsne
    rcases w2 with _ | ⟨f, w2'⟩
    · exact absurd rfl hw2ne
    have hEq : (w1 ++ (e :: s') ++ (f :: w2')) ++ ']' :: tail
        = w1 ++ (e :: (s' ++ (f :: (w2' ++ (']' :: tail))))) := by
      simp [List.append_assoc]
    rw [hEq]
    have h1 := takeWhile_dropWhile_append isWordChar w1
      (e :: (s' ++ (f :: (w2' ++ (']' :: tail))))) hw1
      (fun d hd => by
        injection hd with hd
        rw [← hd]
        exact isSpaceChar_not_word (hs e (List.mem_cons_self _ _)))
    have he : e ≠ ']' := by
      intro hz
      have := hs e (List.mem_cons_self _ _)
      rw [hz] at this
      exact absurd this (by decide)
    have hEq2 : e :: (s' ++ (f :: (w2' ++ (']' :: tail))))
        = (e :: s') ++ (f :: (w2' ++ (']' :: tail))) := by simp
    have h2 := takeWhile_dropWhile_append isSpaceChar (e :: s')
      (f :: (w2' ++ (']' :: tail))) hs
      (fun d hd => by
        injection hd with hd
        rw [← hd]
        exact isWordChar_not_space (hw2 f (List.mem_cons_self _ _)))
    have hEq3 : f :: (w2' ++ (']' :: tail)) = (f :: w2') ++ (']' :: tail) := by simp
    have h3 := takeWhile_dropWhile_append isWordChar (f :: w2') (']' :: tail) hw2
      (fun d hd => by injection hd with hd; rw [← hd]; decide)
    simp only [tryCueMatch, h1.1, h1.2, if_neg hw1ne]
    rw [show (match e :: (s' ++ (f :: (w2' ++ (']' :: tail)))) with
        | ']' :: r => some (w1, r)
        | _ => if (e :: (s' ++ (f :: (w2' ++ (']' :: tail))))).takeWhile isSpaceChar = []
            then none
            else
              if ((e :: (s' ++ (f :: (w2' ++ (']' :: tail))))).dropWhile
                  isSpaceChar).takeWhile isWordChar = [] then none
              else
                match ((e :: (s' ++ (f :: (w2' ++ (']' :: tail))))).dropWhile
                    isSpaceChar).dropWhile isWordChar with
                | ']' :: r => some (w1 ++ (e :: (s' ++ (f :: (w2' ++ (']' :: tail))))).takeWhile
                      isSpaceChar ++ ((e :: (s' ++ (f :: (w2' ++ (']' :: tail))))).dropWhile
                      isSpaceChar).takeWhile isWordChar, r)
                | _ => none)
        = if (e :: (s' ++ (f :: (w2' ++ (']' :: tail))))).takeWhile isSpaceChar = []
            then none
            else
              if ((e :: (s' ++ (f :: (w2' ++ (']' :: tail))))).dropWhile
                  isSpaceChar).takeWhile isWordChar = [] then none
              else
                match ((e :: (s' ++ (f :: (w2' ++ (']' :: tail))))).dropWhile
                    isSpaceChar).dropWhile isWordChar with
                | ']' :: r => some (w1 ++ (e :: (s' ++ (f :: (w2' ++ (']' :: tail))))).takeWhile
                      isSpaceChar ++ ((e :: (s' ++ (f :: (w2' ++ (']' :: tail))))).dropWhile
                      isSpaceChar).takeWhile isWordChar, r)
                | _ => none from by simp [he]]
    rw [hEq2, h2.1, h2.2, hEq3, h3.1, h3.2]
    simp only [if_neg (by simp : e :: s' ≠ []), if_neg (by simp : f :: w2' ≠ [])]

theorem cueScanAux_fuel_irrel :
    ∀ (f1 f2 : Nat) (cs : List Char), cs.length ≤ f1 → cs.length ≤ f2 →
      cueScanAux f1 cs = cueScanAux f2 cs := by
  intro f1
  induction f1 with
  | zero =>
    intro f2 cs h1 _
    have hz : cs = [] := List.eq_nil_of_length_eq_zero (Nat.le_zero.1 h1)
    subst hz
    cases f2 <;> rfl
  | succ f ih =>
    intro f2 cs h1 h2
    cases cs with
    | nil => cases f2 <;> rfl
    | cons c t =>
      cases f2 with
      | zero => simp at h2
      | succ g =>
        simp only [List.length_cons, Nat.succ_le_succ_iff] at h1 h2
        rcases hm : tryCueMatch (c :: t) with _ | ⟨⟨cue, rest⟩⟩
        · simp only [cueScanAux, hm]
          rw [ih g t h1 h2]
        · obtain ⟨_, inner, hdec, _⟩ := tryCueMatch_some_spec hm
          have hrl : rest.length ≤ t.length := by
            rw [List.cons_append] at hdec
            injection hdec with h5 h6
            rw [h6, List.length_append]
            omega
          simp only [cueScanAux, hm]
          rw [ih g rest (le_trans hrl h1) (le_trans hrl h2)]

theorem cueScanAux_serialized :
    ∀ (cues : List (List Char)) (text : List Char) (fuel : Nat),
      (∀ q ∈ cues, CueShape q) →
      ((cues.map cueBlock).flatten ++ text).length ≤ fuel →
      cueScanAux fuel ((cues.map cueBlock).flatten ++ text)
        = (cues ++ (extractCues text).1,
           List.replicate cues.length ' ' ++ (extractCues text).2) := by
  intro cues
  induction cues with
  | nil =>
    intro text fuel _ hf
    simp only [List.map_nil, List.flatten_nil, List.nil_append, List.length_nil,
      List.replicate_zero] at hf ⊢
    rw [cueScanAux_fuel_irrel fuel text.length text hf le_rfl]
    rfl
  | cons q rest ih =>
    intro text fuel hsh hf
    have hf2 : (q.length + 3) + ((rest.map cueBlock).flatten ++ text).length ≤ fuel := by
      rw [List.map_cons, List.flatten_cons, List.append_assoc, List.length_append] at hf
      have hqb : (cueBlock q).length = q.length + 3 := by simp [cueBlock]
      omega
    have hform : (((q :: rest).map cueBlock).flatten ++ text)
        = '[' :: (q ++ ']' :: ' ' :: ((rest.map cueBlock).flatten ++ text)) := by
      rw [List.map_cons, List.flatten_cons, List.append_assoc]
      simp [cueBlock, List.append_assoc]
    rw [hform]
    cases fuel with
    | zero => omega
    | succ f =>
      simp only [cueScanAux,
        tryCueMatch_of_shape (hsh q (List.mem_cons_self _ _))
          (' ' :: ((rest.map cueBlock).flatten ++ text))]
      cases f with
      | zero => omega
      | succ g =>
        simp only [cueScanAux,
          tryCueMatch_head_ne (by decide : (' ' : Char) ≠ '[')]
        rw [ih text g (fun p hp => hsh p (List.mem_cons_of_mem _ hp)) (by omega)]
        simp [List.replicate_succ]

theorem strip_pad (B E : List Char) (k : Nat) (hB : B ≠ [])
    (hh : ∀ c, B.head? = some c → isSpaceChar c = false)
    (hg : ∀ c, B.getLast? = some c → isSpaceChar c = false)
    (hE : ∀ c ∈ E, isSpaceChar c = true) :
    stripChars (List.replicate k ' ' ++ B ++ E) = B := by
  unfold stripChars
  rw [List.append_assoc,
    dropWhile_append_all _ _ (fun c hc => by rw [List.eq_of_mem_replicate hc]; decide)]
  rcases B with _ | ⟨b, bt⟩
  · exact absurd rfl hB
  have hb : isSpaceChar b = false := hh b rfl
  rw [show ((b :: bt) ++ E).dropWhile isSpaceChar = (b :: bt) ++ E from by
    simp [List.cons_append, List.dropWhile_cons, hb]]
  rw [List.reverse_append,
    dropWhile_append_all _ _ (fun c hc => hE c (List.mem_reverse.1 hc))]
  have hrne : (b :: bt).reverse ≠ [] := by simp
  rw [dropWhile_eq_self_of_head hrne (by
    rw [List.head_reverse]
    exact hg _ (List.getLast?_eq_getLast _ (by simp)))]
  exact List.reverse_reverse _

theorem speakerValue_ne_nil (spk : Speaker) : speakerValue spk ≠ [] := by
  cases spk <;> decide

theorem matchHostMarker_speakerValue (spk : Speaker) (r : List Char) :
    matchHostMarker (speakerValue spk ++ ':' :: r) = some (speakerValue spk, r) := by
  cases spk <;> rfl

theorem matchHostMarker_nl (next : List Char) : matchHostMarker ('\n' :: next) = none := rfl

theorem collectTextAux_cons_false (marker : List Char → Option (List Char × List Char))
    (f : Nat) (c : Char) (cs : List Char) :
    collectTextAux marker (f + 1) false (c :: cs)
      = (c :: (collectTextAux marker f (c = '\n') cs).1,
         (collectTextAux marker f (c = '\n') cs).2) := by
  simp [collectTextAux]

theorem collectTextAux_cons_true (marker : List Char → Option (List Char × List Char))
    (f : Nat) (c : Char) (cs : List Char) (hm : marker (c :: cs) = none) :
    collectTextAux marker (f + 1) true (c :: cs)
      = (c :: (collectTextAux marker f (c = '\n') cs).1,
         (collectTextAux marker f (c = '\n') cs).2) := by
  simp [collectTextAux, hm]

theorem collectTextAux_cons_match (marker : List Char → Option (List Char × List Char))
    (f : Nat) (c : Char) (cs : List Char) (r : List Char × List Char)
    (hm : marker (c :: cs) = some r) :
    collectTextAux marker (f + 1) true (c :: cs) = ([], some r) := by
  simp [collectTextAux, hm]

theorem collectTextAux_no_nl (marker : List Char → Option (List Char × List Char)) :
    ∀ (C : List Char) (fuel : Nat), '\n' ∉ C → C.length ≤ fuel →
      collectTextAux marker fuel false C = (C, none) := by
  intro C
  induction C with
  | nil => intro fuel _ _; cases fuel <;> rfl
  | cons c t ih =>
    intro fuel h hf
    obtain ⟨f, rfl⟩ : ∃ f, fuel = f + 1 := ⟨fuel - 1, by simp at hf; omega⟩
    have hc : (decide (c = '\n')) = false := by
      simp only [decide_eq_false_iff_not]
      intro hz
      exact h (hz ▸ List.mem_cons_self _ _)
    rw [collectTextAux_cons_false, hc,
      ih f (fun hm => h (List.mem_cons_of_mem _ hm)) (by simp at hf; omega)]

theorem collectTextAux_sep (marker : List Char → Option (List Char × List Char))
    (next : List Char) (res : List Char × List Char)
    (hnl : marker ('\n' :: next) = none) (hres : marker next = some res) (hne : next ≠ []) :
    ∀ (C : List Char) (fuel : Nat), '\n' ∉ C → C.length + 3 ≤ fuel →
      collectTextAux marker fuel false (C ++ '\n' :: '\n' :: next)
        = (C ++ ['\n', '\n'], some res) := by
  intro C
  induction C with
  | nil =>
    intro fuel _ hf
    obtain ⟨f, rfl⟩ : ∃ f, fuel = f + 3 := ⟨fuel - 3, by omega⟩
    simp only [List.nil_append]
    rw [show f + 3 = (f + 2) + 1 from rfl, collectTextAux_cons_false,
      show (decide ('\n' = '\n')) = true from by decide,
      show f + 2 = (f + 1) + 1 from rfl, collectTextAux_cons_true _ _ _ _ hnl,
      show (decide ('\n' = '\n')) = true from by decide]
    rcases next with _ | ⟨n, nt⟩
    · exact absurd rfl hne
    rw [collectTextAux_cons_match _ _ _ _ _ hres]
  | cons c t ih =>
    intro fuel h hf
    obtain ⟨f, rfl⟩ : ∃ f, fuel = f + 1 := ⟨fuel - 1, by omega⟩
    have hc : (decide (c = '\n')) = false := by
      simp only [decide_eq_false_iff_not]
      intro hz
      exact h (hz ▸ List.mem_cons_self _ _)
    simp only [List.cons_append]
    rw [collectTextAux_cons_false, hc,
      ih f (fun hm => h (List.mem_cons_of_mem _ hm)) (by simp at hf ⊢; omega)]

theorem segmentsToScript_cons (seg : SpeakerSegment) (rest : List SpeakerSegment) :
    segmentsToScript (seg :: rest) = speakerValue seg.speaker ++ ':' :: turnRest seg rest := by
  cases rest with
  | nil =>
    simp [segmentsToScript, segToLine, turnRest, List.intercalate]
  | cons s2 r' =>
    rw [segmentsToScript, List.map_cons, List.map_cons, intercalate_cons_cons]
    rw [show List.intercalate ['\n', '\n'] (segToLine s2 :: r'.map segToLine)
        = segmentsToScript (s2 :: r') from by rw [segmentsToScript, List.map_cons]]
    simp [segToLine, turnRest, List.append_assoc]

theorem turnRest_length : ∀ (rest : List SpeakerSegment) (seg : SpeakerSegment),
    rest.length + 1 ≤ (turnRest seg rest).length := by
  intro rest
  induction rest with
  | nil => intro seg; simp [turnRest]
  | cons s2 r' ih =>
    intro seg
    have h2 := ih s2
    have hexp : turnRest seg (s2 :: r')
        = (' ' :: cuesPfx seg.cues)
          ++ (seg.text
            ++ ('\n' :: '\n' :: (speakerValue s2.speaker ++ ':' :: turnRest s2 r'))) := by
      simp only [turnRest, segmentsToScript_cons, List.cons_append, List.append_assoc]
    rw [hexp]
    simp only [List.length_append, List.length_cons]
    omega

theorem cleanTurnText_serialized (cues : List (List Char)) (text : List Char)
    (hsh : ∀ q ∈ cues, CueShape q) (hex : extractCues text = ([], text))
    (hstrip : stripChars text = text) (hcol : collapseSpaces text = text)
    (hne : text ≠ []) :
    cleanTurnText (cuesPfx cues ++ text) = (cues, text) := by
  have hscan : extractCues (cuesPfx cues ++ text)
      = (cues, List.replicate cues.length ' ' ++ text) := by
    rw [cuesPfx_eq_flatten]
    simp only [extractCues]
    rw [cueScanAux_serialized cues text _ hsh le_rfl, hex]
    simp
  have hh : ∀ c, text.head? = some c → isSpaceChar c = false := by
    intro c hc
    exact stripChars_head?_not_space (by rw [hstrip]; exact hc)
  have hg : ∀ c, text.getLast? = some c → isSpaceChar c = false := by
    intro c hc
    exact stripChars_getLast?_not_space (by rw [hstrip]; exact hc)
  have hsp := strip_pad text [] cues.length hne hh hg (by simp)
  rw [List.append_nil] at hsp
  simp only [cleanTurnText, hscan, hsp, hcol]

theorem postTurn_serialized (spk : List Char) (cues : List (List Char)) (text E : List Char)
    (hsh : ∀ q ∈ cues, CueShape q) (hstrip : stripChars text = text) (hne : text ≠ [])
    (hstar : text.head? ≠ some '*') (hE : ∀ c ∈ E, isSpaceChar c = true) :
    postTurn (spk, ' ' :: ((cuesPfx cues ++ text) ++ E)) = some (spk, cuesPfx cues ++ text) := by
  have hBne : cuesPfx cues ++ text ≠ [] := fun hz => hne (List.append_eq_nil.1 hz).2
  have hh0 : ∀ c, (cuesPfx cues ++ text).head? = some c → isSpaceChar c = false ∧ c ≠ '*' := by
    cases cues with
    | nil =>
      intro c hc
      rw [show cuesPfx [] = [] from rfl, List.nil_append] at hc
      exact ⟨stripChars_head?_not_space (by rw [hstrip]; exact hc),
        fun hz => hstar (hz ▸ hc)⟩
    | cons q rest =>
      intro c hc
      rw [cuesPfx_eq_flatten, List.map_cons, List.flatten_cons] at hc
      simp only [cueBlock, List.cons_append, List.append_assoc, List.head?_cons] at hc
      injection hc with hc
      rw [← hc]
      exact ⟨by decide, by decide⟩
  have hg0 : ∀ c, (cuesPfx cues ++ text).getLast? = some c → isSpaceChar c = false := by
    intro c hc
    rw [List.getLast?_append_of_ne_nil _ hne] at hc
    exact stripChars_getLast?_not_space (by rw [hstrip]; exact hc)
  have h1 : stripChars (' ' :: ((cuesPfx cues ++ text) ++ E)) = cuesPfx cues ++ text := by
    have := strip_pad (cuesPfx cues ++ text) E 1 hBne (fun c hc => (hh0 c hc).1) hg0 hE
    simpa using this
  have h2 : (cuesPfx cues ++ text).dropWhile (· = '*') = cuesPfx cues ++ text := by
    apply dropWhile_eq_self_of_head hBne
    have := hh0 _ (List.head?_eq_head hBne)
    simp [this.2]
  have h3 : stripChars (cuesPfx cues ++ text) = cuesPfx cues ++ text :=
    stripChars_of_ends' _ (fun c hc => (hh0 c hc).1) hg0
  simp only [postTurn, h1, h2, h3]
  rw [if_neg hBne]

theorem scanTurnsAux_serialized :
    ∀ (rest : List SpeakerSegment) (seg : SpeakerSegment) (fuel : Nat),
      (∀ s ∈ seg :: rest, RoundTripSafe s) → rest.length + 1 ≤ fuel →
      (scanTurnsAux matchHostMarker fuel
          (speakerValue seg.speaker, turnRest seg rest)).filterMap postTurn
        = (seg :: rest).map (fun s => (speakerValue s.speaker, cuesPfx s.cues ++ s.text)) := by
  intro rest
  induction rest with
  | nil =>
    intro seg fuel hsafe hf
    obtain ⟨hne, hlen, hnl, hstar, hex, hstrip, hcol, hcues⟩ :=
      hsafe seg (List.mem_cons_self _ _)
    obtain ⟨f, rfl⟩ : ∃ f, fuel = f + 1 := ⟨fuel - 1, by omega⟩
    have hform : turnRest seg [] = ' ' :: ((cuesPfx seg.cues ++ seg.text) ++ []) := by
      simp only [turnRest, List.cons_append, List.append_assoc, List.append_nil]
    have hnlC : '\n' ∉ ' ' :: ((cuesPfx seg.cues ++ seg.text) ++ []) := by
      simp only [List.append_nil, List.mem_cons, List.mem_append]
      rintro (hm | hm | hm)
      · exact absurd hm (by decide)
      · exact cuesPfx_no_nl seg.cues (fun q hq => (hcues q hq).2) hm
      · exact hnl hm
    simp only [scanTurnsAux, hform, collectTextAux_no_nl matchHostMarker _ _ hnlC le_rfl,
      List.filterMap_cons,
      postTurn_serialized (speakerValue seg.speaker) seg.cues seg.text []
        (fun q hq => (hcues q hq).1) hstrip hne hstar
        (fun c hc => absurd hc (List.not_mem_nil c)),
      List.filterMap_nil, List.map_cons, List.map_nil]
  | cons s2 r' ih =>
    intro seg fuel hsafe hf
    obtain ⟨hne, hlen, hnl, hstar, hex, hstrip, hcol, hcues⟩ :=
      hsafe seg (List.mem_cons_self _ _)
    obtain ⟨f, rfl⟩ : ∃ f, fuel = f + 1 := ⟨fuel - 1, by omega⟩
    have hnext := segmentsToScript_cons s2 r'
    have hnextne : segmentsToScript (s2 :: r') ≠ [] := by
      rw [hnext]
      intro hz
      exact speakerValue_ne_nil s2.speaker (List.append_eq_nil.1 hz).1
    have hmres : matchHostMarker (segmentsToScript (s2 :: r'))
        = some (speakerValue s2.speaker, turnRest s2 r') := by
      rw [hnext]
      exact matchHostMarker_speakerValue _ _
    have hform : turnRest seg (s2 :: r')
        = (' ' :: (cuesPfx seg.cues ++ seg.text))
          ++ '\n' :: '\n' :: segmentsToScript (s2 :: r') := by
      simp only [turnRest, List.cons_append, List.append_assoc]
    have hnlC : '\n' ∉ ' ' :: (cuesPfx seg.cues ++ seg.text) := by
      simp only [List.mem_cons, List.mem_append]
      rintro (hm | hm | hm)
      · exact absurd hm (by decide)
      · exact cuesPfx_no_nl seg.cues (fun q hq => (hcues q hq).2) hm
      · exact hnl hm
    have hcollect := collectTextAux_sep matchHostMarker (segmentsToScript (s2 :: r'))
      (speakerValue s2.speaker, turnRest s2 r') (matchHostMarker_nl _) hmres hnextne
      (' ' :: (cuesPfx seg.cues ++ seg.text))
      ((' ' :: (cuesPfx seg.cues ++ seg.text))
          ++ '\n' :: '\n' :: segmentsToScript (s2 :: r')).length hnlC
      (by
        simp only [List.length_append, List.length_cons]
        have := List.length_pos.2 hnextne
        omega)
    have hpost := postTurn_serialized (speakerValue seg.speaker) seg.cues seg.text
      ['\n', '\n'] (fun q hq => (hcues q hq).1) hstrip hne hstar (by decide)
    simp only [List.cons_append, List.append_assoc] at hcollect hpost
    simp only [scanTurnsAux, hform, List.cons_append, List.append_assoc, hcollect,
      List.filterMap_cons, hpost]
    rw [ih s2 f (fun s hs => hsafe s (List.mem_cons_of_mem _ hs)) (by
      simp only [List.length_cons] at hf
      omega)]
    simp

theorem splitIntoTurns_serialized (segs : List SpeakerSegment)
    (hsafe : ∀ s ∈ segs, RoundTripSafe s) :
    splitIntoTurns matchHostMarker (segmentsToScript segs)
      = segs.map (fun s => (speakerValue s.speaker, cuesPfx s.cues ++ s.text)) := by
  cases segs with
  | nil => rfl
  | cons seg rest =>
    have hscript := segmentsToScript_cons seg rest
    have hmark : matchHostMarker (segmentsToScript (seg :: rest))
        = some (speakerValue seg.speaker, turnRest seg rest) := by
      rw [hscript]
      exact matchHostMarker_speakerValue _ _
    have hne0 : segmentsToScript (seg :: rest) ≠ [] := by
      rw [hscript]
      intro hz
      exact speakerValue_ne_nil seg.speaker (List.append_eq_nil.1 hz).1
    obtain ⟨c, cs, hcs⟩ := List.exists_cons_of_ne_nil hne0
    have hfind : findFirstMarkerAux matchHostMarker (segmentsToScript (seg :: rest)).length
        true (segmentsToScript (seg :: rest))
        = some (speakerValue seg.speaker, turnRest seg rest) := by
      rw [hcs] at hmark ⊢
      simp [findFirstMarkerAux, hmark]
    simp only [splitIntoTurns, hfind]
    exact scanTurnsAux_serialized rest seg _ hsafe (by
      have := turnRest_length rest seg
      omega)

theorem hostResolve_speakerValue (spk : Speaker) :
    hostResolve (speakerValue spk) = some spk := by
  cases spk <;> decide

theorem foldl_processTurn_serialized :
    ∀ (segs : List SpeakerSegment) (acc : List SpeakerSegment),
      (∀ s ∈ segs, RoundTripSafe s) →
      ((segs.map (fun s => (speakerValue s.speaker, cuesPfx s.cues ++ s.text))).foldl
          (processTurn hostResolve) acc).map (fun s => (s.speaker, s.text, s.cues))
        = acc.map (fun s => (s.speaker, s.text, s.cues))
          ++ segs.map (fun s => (s.speaker, s.text, s.cues)) := by
  intro segs
  induction segs with
  | nil => intro acc _; simp
  | cons s rest ih =>
    intro acc hsafe
    obtain ⟨hne, hlen, hnl, hstar, hex, hstrip, hcol, hcues⟩ := hsafe s (List.mem_cons_self _ _)
    have hclean : cleanTurnText (cuesPfx s.cues ++ s.text) = (s.cues, s.text) :=
      cleanTurnText_serialized _ _ (fun q hq => (hcues q hq).1) hex hstrip hcol hne
    have hstep : processTurn hostResolve acc (speakerValue s.speaker, cuesPfx s.cues ++ s.text)
        = acc ++ [⟨s.speaker, s.text, acc.length, s.cues⟩] := by
      simp only [processTurn, hostResolve_speakerValue, hclean]
      rw [if_neg hne]
      simp only [emitTurn]
      rw [if_neg (Nat.not_lt.2 hlen)]
    simp only [List.map_cons, List.foldl_cons, hstep]
    rw [ih _ (fun x hx => hsafe x (List.mem_cons_of_mem _ hx))]
    simp

/-- **C8** (corrected): for every segment list in the round-trip-safe regime —
non-empty, in-limit, newline-free text not starting with `*` and untouched by
cue extraction, stripping and whitespace collapsing, with every cue of the
regex-capturable shape and newline-free — serializing with
`segments_to_script` and re-parsing with `parse_script` recovers the
speakers, texts and cue lists exactly.  (Unrestricted, the round trip fails:
see the counterexample.) -/
theorem roundtrip_preserves (segs : List SpeakerSegment)
    (hsafe : ∀ s ∈ segs, RoundTripSafe s) :
    (parseScript (segmentsToScript segs)).map (fun s => (s.speaker, s.text, s.cues))
      = segs.map (fun s => (s.speaker, s.text, s.cues)) := by
  simp only [parseScript, splitIntoTurns_serialized segs hsafe]
  simpa using foldl_processTurn_serialized segs [] hsafe

/-- C8 counterexample to the unrestricted claim: the script
`"HOST_A: [a[x]b]"` parses to one segment with text `"[ab]"` and cue list
`["x"]`; serializing that segment yields `"HOST_A: [x] [ab]"`, and re-parsing
extracts `"ab"` as a second cue, leaving an empty text, so the whole turn is
dropped: the second parse returns no segments at all — neither the text
content nor the cue list survives the round trip. -/
theorem roundtrip_counterexample :
    (parseScript "HOST_A: [a[x]b]".data).map (fun s => (s.speaker, s.text, s.cues))
      = [(Speaker.HOST_A, "[ab]".data, [['x']])] ∧
    parseScript (segmentsToScript (parseScript "HOST_A: [a[x]b]".data)) = [] := by
  constructor
  · decide
  · decide

theorem roundtrip_preserves_witness :
    (∀ s ∈ rtWitnessSegs, RoundTripSafe s) ∧
    (parseScript (segmentsToScript rtWitnessSegs)).map (fun s => (s.speaker, s.text, s.cues))
      = rtWitnessSegs.map (fun s => (s.speaker, s.text, s.cues)) := by
  have hsafe : ∀ s ∈ rtWitnessSegs, RoundTripSafe s := by
    intro s hs
    simp only [rtWitnessSegs, List.mem_cons, List.not_mem_nil, or_false] at hs
    rcases hs with rfl | rfl
    · exact ⟨by decide, by decide, by decide, by decide, by decide, by decide, by decide,
        fun q hq => by
          simp only [List.mem_cons, List.not_mem_nil, or_false] at hq
          subst hq
          exact ⟨Or.inl ⟨by decide, by decide⟩, by decide⟩⟩
    · exact ⟨by decide, by decide, by decide, by decide, by decide, by decide, by decide,
        fun q hq => absurd hq (List.not_mem_nil q)⟩
  exact ⟨hsafe, roundtrip_preserves rtWitnessSegs hsafe⟩
